import Mathlib

/-!
Verification of the distance-vector routing simulator (src/src/App.tsx).

The development shallowly embeds the algorithmic core of the application:
the routing-table data model, the setup form's data handlers
(`NetworkSetup` / `handleSetupComplete`), the convergence engine
(`updateRoutingTables`, with and without the pause flag made explicit),
and the live weight-edit path (`handleWeightChange`).

Conventions of the embedding:
- Node identifiers are natural numbers 0, 1, 2, ... standing for the
  source's 'A', 'B', 'C', ... (`String.fromCharCode(65 + i)`).
- TypeScript numbers carrying distances and weights become `Int`
  (all arithmetic performed by the source on them is exact integer
  arithmetic).
- The source's `nextHop` strings become `Option Nat` (`none` is `'-'`).
- The per-node `routingTable` records become one total function
  `Table : Nat → Nat → Entry`; cells the source never creates (self
  entries, out-of-range ids) are present but never read except through
  `readDist`, which reproduces the source's
  `neighbor.routingTable[dest.id]?.distance || INFINITY` lookup,
  including the JavaScript falsiness of `0` (`jsOr`).
- Purely visual state (coordinates, colors, `isActive` highlighting,
  animation paths, status strings other than the completion message)
  is omitted; the spec declares rendering out of scope.
-/

/-- The unreachable sentinel, `const INFINITY = 999999` in the source. -/
def INFINITY : Int := 999999

/-- A link, `interface Link` in the source (color omitted; `from` is a
Lean keyword, hence the field name `from_`). -/
structure Link where
  from_ : Nat
  to_ : Nat
  weight : Int
deriving DecidableEq

/-- One routing-table entry: the value type of `Node.routingTable` in the
source (`distance`, `nextHop`, `isNew`, `isProcessing`, `calculated`). -/
structure Entry where
  distance : Int
  nextHop : Option Nat
  isNew : Bool
  isProcessing : Bool
  calculated : Bool
deriving DecidableEq

/-- All routing tables of all nodes, as one function from
(node, destination) to the entry. -/
abbrev Table := Nat → Nat → Entry

/-- The entry every pair starts from: `distance: INFINITY, nextHop: '-'`,
all flags `false` (see `handleSetupComplete` and `restartSimulation`). -/
def initEntry : Entry := ⟨INFINITY, none, false, false, false⟩

/-- The freshly allocated table of `handleSetupComplete`. -/
def initTable : Table := fun _ _ => initEntry

/-- Overwrite one (node, destination) cell, the embedding of
`node.routingTable[dest] = entry`. -/
def setEntry (t : Table) (n d : Nat) (e : Entry) : Table :=
  fun a b => if a = n ∧ b = d then e else t a b

/-- JavaScript `x || y` restricted to the numbers the source feeds it:
`0` is falsy and yields `y`. -/
def jsOr (x y : Int) : Int := if x = 0 then y else x

/-- The source's neighbor lookup
`neighbor.routingTable[dest.id]?.distance || INFINITY`: a node has no
entry for itself (the `h = d` branch), and a present entry of `0` would
still collapse to `INFINITY` by falsiness. -/
def readDist (t : Table) (h d : Nat) : Int :=
  if h = d then INFINITY else jsOr ((t h d).distance) INFINITY

/-- The endpoint of link `l` other than `n`, as computed by
`link.from === node.id ? link.to : link.from`. -/
def otherEnd (l : Link) (n : Nat) : Nat := if l.from_ = n then l.to_ else l.from_

/-- One iteration of the inner link scan of `updateRoutingTables`
(lines 357-382 of App.tsx): the accumulator carries the running
(minDistance, nextHop, hasChanges-contribution). -/
def considerLink (t : Table) (n d : Nat) (acc : Int × Option Nat × Bool)
    (l : Link) : Int × Option Nat × Bool :=
  if l.from_ = n ∨ l.to_ = n then
    let h := otherEnd l n
    let cand := l.weight + readDist t h d
    if cand < acc.1 then (cand, some h, true) else acc
  else acc

/-- The full `for (const link of links)` scan for one
(node, destination) pair. -/
def scanLinks (links : List Link) (t : Table) (n d : Nat)
    (acc : Int × Option Nat × Bool) : Int × Option Nat × Bool :=
  links.foldl (considerLink t n d) acc

/-- One (node, destination) relaxation step (the body of the
`if (node.id !== dest.id)` block): mark the entry processing, scan every
incident link, then write `{distance: minDistance, nextHop, isNew:
minDistance !== oldDistance, isProcessing: false, calculated: true}`;
the returned Bool is this step's contribution to `hasChanges`. -/
def relaxPair (links : List Link) (t : Table) (n d : Nat) : Table × Bool :=
  let t1 := setEntry t n d { t n d with isProcessing := true }
  let old := t1 n d
  let r := scanLinks links t1 n d (old.distance, old.nextHop, false)
  (setEntry t1 n d ⟨r.1, r.2.1, decide (r.1 ≠ old.distance), false, true⟩, r.2.2)

/-- One (node, destination) loop iteration including the
`node.id !== dest.id` guard; the accumulator threads the table and the
pass's `hasChanges` flag. -/
def relaxDest (links : List Link) (acc : Table × Bool) (n d : Nat) :
    Table × Bool :=
  if n = d then acc
  else
    let r := relaxPair links acc.1 n d
    (r.1, acc.2 || r.2)

/-- The ordered (node, destination) pairs of one pass: the source's
`for (const node of nodes) for (const dest of nodes)` with nodes in
declaration order. -/
def pairList (N : Nat) : List (Nat × Nat) :=
  (List.range N).flatMap (fun n => (List.range N).map (fun d => (n, d)))

/-- One full relaxation pass; `hasChanges` starts `false` at each pass. -/
def passOnce (links : List Link) (N : Nat) (t : Table) : Table × Bool :=
  (pairList N).foldl (fun acc p => relaxDest links acc p.1 p.2) (t, false)

/-- Initialization of both directions of a direct link (lines 295-309):
`{distance: link.weight, nextHop: other, isNew: true, isProcessing:
false, calculated: true}`. -/
def initLink (t : Table) (l : Link) : Table :=
  setEntry (setEntry t l.from_ l.to_ ⟨l.weight, some l.to_, true, false, true⟩)
    l.to_ l.from_ ⟨l.weight, some l.from_, true, false, true⟩

/-- The `for (const link of links)` initialization phase. -/
def initPhase (links : List Link) (t : Table) : Table :=
  links.foldl initLink t

/-- The `while (hasChanges && pass <= maxPasses)` loop, with the
remaining pass budget as fuel; returns the final table and the list of
per-pass `hasChanges` outcomes of the passes that actually executed. -/
def relaxLoop (links : List Link) (N : Nat) : Nat → Table → Table × List Bool
  | 0, t => (t, [])
  | fuel + 1, t =>
    let p := passOnce links N t
    if p.2 then
      let r := relaxLoop links N fuel p.1
      (r.1, true :: r.2)
    else (p.1, [false])

/-- The observable outcome of one `updateRoutingTables` run: the final
tables, which executed passes reported changes, and the epilogue state
(`setIsProcessing(false)`, `setCurrentPass(0)`, the completion
status message). -/
structure SimResult where
  table : Table
  passFlags : List Bool
  isProcessing : Bool
  currentPass : Nat
  status : String

/-- The whole `updateRoutingTables` run (pause flag never set): link
initialization, then at most `maxPasses = nodes.length - 1` relaxation
passes, then the completion epilogue. -/
def updateRoutingTables (N : Nat) (links : List Link) (t : Table) : SimResult :=
  let t1 := initPhase links t
  let maxPasses := N - 1
  let r := relaxLoop links N maxPasses t1
  ⟨r.1, r.2, false, 0, "Simulation complete"⟩

/-! ## The setup form (`NetworkSetup`, `handleSetupComplete`) -/
/-- The distance matrix the setup form starts from: every cell
`INFINITY` (the `useEffect` on `nodeCount`). -/
def initialMatrix : Nat → Nat → Int := fun _ _ => INFINITY

/-- `handleDistanceChange`: writes the entered value into both mirrored
cells of the matrix. -/
def handleDistanceChange (m : Nat → Nat → Int) (i j : Nat) (v : Int) :
    Nat → Nat → Int :=
  fun a b => if (a = i ∧ b = j) ∨ (a = j ∧ b = i) then v else m a b

/-- The weight input's `parseInt(e.target.value) || INFINITY`: an empty
or unparsable field (`none`) and an entered `0` both collapse to the
no-link sentinel; every other integer, including negative ones, passes
through. -/
def parseIntOr (raw : Option Int) : Int :=
  match raw with
  | none => INFINITY
  | some x => jsOr x INFINITY

/-- The node-count input's
`Math.min(8, Math.max(2, parseInt(e.target.value)))`. -/
def nodeCountInput (raw : Int) : Int := min 8 (max 2 raw)

/-- The link list built by `handleSetupComplete`: for `i` from 0 and
`j < i`, a link `{from: j, to: i, weight: distances[i][j]}` whenever
`distances[i][j] !== INFINITY`. -/
def buildLinks (N : Nat) (m : Nat → Nat → Int) : List Link :=
  (List.range N).foldl
    (fun acc i =>
      (List.range i).foldl
        (fun acc2 j => if m i j = INFINITY then acc2 else acc2 ++ [⟨j, i, m i j⟩])
        acc)
    []

/-- `handleSetupComplete`: produces the link list and the fresh routing
tables (all entries `initEntry`); it has no failure path. -/
def handleSetupComplete (N : Nat) (m : Nat → Nat → Int) : List Link × Table :=
  (buildLinks N m, initTable)

/-! ## The weight-edit path (`handleLinkClick` / `handleWeightChange`) -/
/-- The link-weight update of `handleWeightChange`: every stored link
whose endpoints match the selected link in either orientation gets the
new weight. -/
def updateLinkWeight (links : List Link) (sel : Link) (w : Int) : List Link :=
  links.map fun l =>
    if (l.from_ = sel.from_ ∧ l.to_ = sel.to_) ∨ (l.from_ = sel.to_ ∧ l.to_ = sel.from_)
    then { l with weight := w } else l

/-- The routing-table transformation `handleWeightChange` performs
before restarting the engine: `{...v, calculated: false, isNew: false,
isProcessing: false}` for every entry — the flags are cleared while
`distance` and `nextHop` are carried over unchanged. -/
def clearFlags (t : Table) : Table :=
  fun a b => { t a b with calculated := false, isNew := false, isProcessing := false }

/-- The whole `handleWeightChange` handler. Guard: it runs only when a
link is selected, an edit weight is loaded, and `!isProcessing`; the
paused flag is available to the component but never consulted by this
guard (`isPaused` is accepted and ignored, mirroring the source). On
success: `newWeight = Math.max(1, editWeight + change)`, the link list
is updated, the table flags are cleared, and `updateRoutingTables` runs
again. `none` models the silent no-op rejection. -/
def handleWeightChange (sel : Option Link) (editWeight : Option Int)
    (isProcessing isPaused : Bool) (change : Int) (N : Nat)
    (links : List Link) (t : Table) : Option (List Link × SimResult) :=
  match sel, editWeight with
  | some l, some w =>
    if isProcessing then none
    else
      let nw := max 1 (w + change)
      let links2 := updateLinkWeight links l nw
      some (links2, updateRoutingTables N links2 (clearFlags t))
  | _, _ => none

/-! ## The reference 3-node scenario

Three nodes A, B, C; links A-B of weight 2 and B-C of weight 3, no A-C
link, entered through the setup form's handlers. -/
/-- The scenario's distance matrix as produced by two
`handleDistanceChange` calls on the initial all-`INFINITY` matrix. -/
def scenarioMatrix : Nat → Nat → Int :=
  handleDistanceChange
    (handleDistanceChange initialMatrix 1 0 (parseIntOr (some 2)))
    2 1 (parseIntOr (some 3))

/-- The scenario's link list, `[{from: A, to: B, w: 2}, {from: B, to: C, w: 3}]`. -/
def scenarioLinks : List Link := (handleSetupComplete 3 scenarioMatrix).1

/-! ## The run with the pause flag made explicit

The source consults `pauseRef.current` once at the top of every loop
iteration, both in the link-initialization loop (lines 274-278) and in
the (node, destination) loop (lines 335-339); when the flag is set the
handler waits the pause out and then `continue`s, abandoning that
iteration's unit of work.  The embedding numbers these checkpoints
0, 1, 2, ... across one run and takes the flag's value at each
checkpoint as a schedule `Nat → Bool`; `updateRoutingTables` above is
this run under the never-paused schedule. -/
/-- The initialization loop with the pause checkpoint explicit: a link
whose checkpoint sees the flag set is skipped (`continue`). -/
def initPhaseP (sched : Nat → Bool) (links : List Link) (st : Table × Nat) :
    Table × Nat :=
  links.foldl
    (fun st l => if sched st.2 then (st.1, st.2 + 1) else (initLink st.1 l, st.2 + 1))
    st

/-- One (node, destination) iteration with the pause checkpoint
explicit; the checkpoint precedes the `node.id !== dest.id` test, as in
the source. -/
def relaxDestP (sched : Nat → Bool) (links : List Link)
    (acc : Table × Bool × Nat) (n d : Nat) : Table × Bool × Nat :=
  if sched acc.2.2 then (acc.1, acc.2.1, acc.2.2 + 1)
  else if n = d then (acc.1, acc.2.1, acc.2.2 + 1)
  else
    let r := relaxPair links acc.1 n d
    (r.1, acc.2.1 || r.2, acc.2.2 + 1)

/-- One full pass with pause checkpoints. -/
def passOnceP (sched : Nat → Bool) (links : List Link) (N : Nat)
    (t : Table) (c : Nat) : Table × Bool × Nat :=
  (pairList N).foldl (fun acc p => relaxDestP sched links acc p.1 p.2) (t, false, c)

/-- The pass loop with pause checkpoints. -/
def relaxLoopP (sched : Nat → Bool) (links : List Link) (N : Nat) :
    Nat → Table → Nat → Table × Nat
  | 0, t, c => (t, c)
  | fuel + 1, t, c =>
    let p := passOnceP sched links N t c
    if p.2.1 then relaxLoopP sched links N fuel p.1 p.2.2
    else (p.1, p.2.2)

/-- The whole `updateRoutingTables` run under a pause-flag schedule. -/
def updateRoutingTablesP (sched : Nat → Bool) (N : Nat) (links : List Link)
    (t : Table) : SimResult :=
  let s1 := initPhaseP sched links (t, 0)
  let r := relaxLoopP sched links N (N - 1) s1.1 s1.2
  ⟨r.1, [], false, 0, "Simulation complete"⟩

/-- A realizable pause history: the flag is set when the very first
checkpoint is reached (pause pressed before the first link is
processed) and clear from then on (resume during the wait). -/
def schedFirst : Nat → Bool := fun c => c == 0

/-- The scenario's converged routing tables. -/
def convergedTable : Table := (updateRoutingTables 3 scenarioLinks initTable).table

/-- The scenario's links after raising the A-B weight to 10. -/
def editedLinks : List Link := updateLinkWeight scenarioLinks ⟨0, 1, 2⟩ 10

def bigLinks : List Link := [⟨0, 1, 500000⟩, ⟨1, 2, 600000⟩]

def matrixNeg : Nat → Nat → Int :=
  handleDistanceChange initialMatrix 1 0 (parseIntOr (some (-5)))

/-! ## Graph-theoretic vocabulary

Independent notions of adjacency, walks and shortest-path distance in
the weighted graph described by a link list, used to state the
correctness claims about the engine. -/
/-- A session as the claims scope it: node count in the supported range
[2, 8]; every link joins two distinct in-range nodes listed with the
smaller endpoint first (`handleSetupComplete` emits `{from: j, to: i}`
with `j < i`); every weight is a positive integer below the unreachable
sentinel (a matrix cell equal to `INFINITY` means "no link" in the
setup form); and no unordered pair of nodes carries two links. -/
def ValidSession (N : Nat) (links : List Link) : Prop :=
  2 ≤ N ∧ N ≤ 8 ∧
  (∀ l ∈ links, l.from_ < l.to_ ∧ l.to_ < N ∧ 1 ≤ l.weight ∧ l.weight < INFINITY) ∧
  links.Pairwise (fun l1 l2 => l1.from_ ≠ l2.from_ ∨ l1.to_ ≠ l2.to_)

instance (N : Nat) (links : List Link) : Decidable (ValidSession N links) :=
  inferInstanceAs (Decidable (_ ∧ _ ∧ _ ∧ _))

/-- Two nodes joined by some link, in either orientation. -/
def Adjacent (links : List Link) (a b : Nat) : Prop :=
  ∃ l ∈ links, (l.from_ = a ∧ l.to_ = b) ∨ (l.from_ = b ∧ l.to_ = a)

instance (links : List Link) (a b : Nat) : Decidable (Adjacent links a b) :=
  List.decidableBEx _ links

/-- A node adjacent to `a` through a link of weight `w`. -/
def AdjW (links : List Link) (a b : Nat) (w : Int) : Prop :=
  ∃ l ∈ links, ((l.from_ = a ∧ l.to_ = b) ∨ (l.from_ = b ∧ l.to_ = a)) ∧ l.weight = w

/-- The weight of the link joining `a` and `b` (0 when there is none;
in a `ValidSession` each unordered pair carries at most one link, so
the value is well defined on adjacent pairs). -/
def wt (links : List Link) (a b : Nat) : Int :=
  match links.find?
      (fun l => (l.from_ == a && l.to_ == b) || (l.from_ == b && l.to_ == a)) with
  | some l => l.weight
  | none => 0

/-- Executable decision procedure for chains of adjacent nodes (the
library instance for `List.Chain'` does not evaluate in the kernel). -/
def chainAdjDec (links : List Link) :
    (vs : List Nat) → Decidable (vs.Chain' (Adjacent links))
  | [] => isTrue List.chain'_nil
  | [a] => isTrue (List.chain'_singleton a)
  | a :: b :: rest =>
    haveI : Decidable ((b :: rest).Chain' (Adjacent links)) :=
      chainAdjDec links (b :: rest)
    decidable_of_iff (Adjacent links a b ∧ (b :: rest).Chain' (Adjacent links))
      List.chain'_cons.symm

instance (links : List Link) (vs : List Nat) :
    Decidable (vs.Chain' (Adjacent links)) :=
  chainAdjDec links vs

/-- A walk from `n` to `d`, as the list of visited nodes: nonempty,
starting at `n`, ending at `d`, with consecutive nodes adjacent. -/
def IsWalk (links : List Link) (n d : Nat) (vs : List Nat) : Prop :=
  vs.head? = some n ∧ vs.getLast? = some d ∧ vs.Chain' (Adjacent links)

instance (links : List Link) (n d : Nat) (vs : List Nat) :
    Decidable (IsWalk links n d vs) :=
  inferInstanceAs (Decidable (_ ∧ _ ∧ _))

/-- The total weight of a walk given as a node list. -/
def walkCost (links : List Link) : List Nat → Int
  | a :: b :: rest => wt links a b + walkCost links (b :: rest)
  | _ => 0

/-- Some walk joins `n` to `d`. -/
def Reachable (links : List Link) (n d : Nat) : Prop :=
  ∃ vs, IsWalk links n d vs

/-- `v` is the true shortest-path distance from `n` to `d`: it is the
cost of some walk and no walk is cheaper. -/
def IsShortestDist (links : List Link) (n d : Nat) (v : Int) : Prop :=
  (∃ vs, IsWalk links n d vs ∧ walkCost links vs = v) ∧
  ∀ vs, IsWalk links n d vs → v ≤ walkCost links vs

/-- A table's distance from `h` to `d` with the self-distance read as 0,
the convention under which the spec's next-hop equation
`distance[n][d] = weight(n, h) + distance[h][d]` covers the direct hop
`h = d` (the store itself has no self entries). -/
def distTo (t : Table) (h d : Nat) : Int :=
  if h = d then 0 else (t h d).distance

/-! ## The running invariant of the engine's tables -/
/-- What justifies a stored next hop `h` for destination `d`: the stored
distance decomposes as (link weight) + `dh`, where `dh` is 0 for the
direct hop and otherwise the cost of some actual walk from `h` to `d`. -/
def GoodHop (links : List Link) (d h : Nat) (dh : Int) : Prop :=
  if h = d then dh = 0 else ∃ vs, IsWalk links h d vs ∧ walkCost links vs = dh

/-- The invariant every reachable state of the engine's tables
satisfies, for every ordered in-range pair: the distance lies in
`[1, INFINITY]`; the sentinel comes with the `'-'` next hop; and a
below-sentinel distance is justified by an adjacent next hop and an
actual walk. -/
def EntryInv (links : List Link) (N : Nat) (t : Table) : Prop :=
  ∀ n d, n < N → d < N → n ≠ d →
    1 ≤ (t n d).distance ∧ (t n d).distance ≤ INFINITY ∧
    ((t n d).distance = INFINITY → (t n d).nextHop = none) ∧
    ((t n d).distance < INFINITY →
      ∃ h w dh, (t n d).nextHop = some h ∧ h < N ∧ AdjW links n h w ∧ 0 ≤ dh ∧
        (t n d).distance = w + dh ∧ GoodHop links d h dh)

/-- The invariant carried by the accumulator of one link scan for the
pair (n, d) over table `t`. -/
def ScanAcc (links : List Link) (N : Nat) (t : Table) (n d : Nat)
    (acc : Int × Option Nat × Bool) : Prop :=
  1 ≤ acc.1 ∧ acc.1 ≤ INFINITY ∧
  ((acc.1 = (t n d).distance ∧ acc.2.1 = (t n d).nextHop) ∨
    acc.1 < INFINITY ∧
      ∃ h w dh, acc.2.1 = some h ∧ h < N ∧ AdjW links n h w ∧ 0 ≤ dh ∧
        acc.1 = w + dh ∧ GoodHop links d h dh)

/-! ## What initialization establishes -/
/-- After the relaxation phase every direct pair still knows at most its
link weight. -/
def DirectLe (links : List Link) (t : Table) : Prop :=
  ∀ l ∈ links, (t l.from_ l.to_).distance ≤ l.weight ∧
    (t l.to_ l.from_).distance ≤ l.weight

/-! ## Pass progress: edge-bounded completeness -/
/-- After enough passes, every walk of at most `k + 1` nodes already
bounds the stored distance. -/
def BoundedOK (links : List Link) (N : Nat) (k : Nat) (t : Table) : Prop :=
  ∀ n d (vs : List Nat), n < N → d < N → n ≠ d → IsWalk links n d vs →
    vs.length ≤ k + 1 → (t n d).distance ≤ walkCost links vs

/-! ## The tie-break specification of the inner scan -/
/-- The candidate list the inner loop walks through, in link-declaration
order: one (candidate distance, neighbor) per link incident to `n`. -/
def candList (links : List Link) (t : Table) (n d : Nat) : List (Int × Nat) :=
  links.filterMap (fun l =>
    if l.from_ = n ∨ l.to_ = n then
      some (l.weight + readDist t (otherEnd l n) d, otherEnd l n)
    else none)

/-! ## Claim C1 -/
/-- Conclusion of the amended claim C1: full shortest-path correctness
of a converged run for every pair joined by some walk of cost below the
unreachable sentinel, together with the expected tables of the 3-node
reference scenario. -/
def C1Concl (N : Nat) (links : List Link) : Prop :=
  (∀ n d, n < N → d < N → n ≠ d →
    (∃ vs, IsWalk links n d vs ∧ walkCost links vs < INFINITY) →
    IsShortestDist links n d
      (((updateRoutingTables N links initTable).table n d).distance) ∧
    ∃ h, ((updateRoutingTables N links initTable).table n d).nextHop = some h ∧
      Adjacent links n h ∧
      ((updateRoutingTables N links initTable).table n d).distance =
        wt links n h + distTo ((updateRoutingTables N links initTable).table) h d) ∧
  (((updateRoutingTables 3 scenarioLinks initTable).table 0 1).distance = 2 ∧
    ((updateRoutingTables 3 scenarioLinks initTable).table 0 1).nextHop = some 1 ∧
    ((updateRoutingTables 3 scenarioLinks initTable).table 0 2).distance = 5 ∧
    ((updateRoutingTables 3 scenarioLinks initTable).table 0 2).nextHop = some 1 ∧
    ((updateRoutingTables 3 scenarioLinks initTable).table 1 2).distance = 3 ∧
    ((updateRoutingTables 3 scenarioLinks initTable).table 1 2).nextHop = some 2 ∧
    ((updateRoutingTables 3 scenarioLinks initTable).table 2 0).distance = 5 ∧
    ((updateRoutingTables 3 scenarioLinks initTable).table 2 0).nextHop = some 1)

/-! ## Claim C4 -/
/-- Conclusion of claim C4 for one session: at most `N - 1` passes
execute, every executed pass except the last reported changes (a
change-free pass stops the loop at once), and the run ends in the
completed state. -/
def C4Concl (N : Nat) (links : List Link) : Prop :=
  (updateRoutingTables N links initTable).passFlags.length ≤ N - 1 ∧
  (∀ i, i + 1 < (updateRoutingTables N links initTable).passFlags.length →
    (updateRoutingTables N links initTable).passFlags.getD i false = true) ∧
  (updateRoutingTables N links initTable).isProcessing = false ∧
  (updateRoutingTables N links initTable).currentPass = 0 ∧
  (updateRoutingTables N links initTable).status = "Simulation complete"

/-- Conclusion of the amended claim C7: session construction never
fails; the node-count input is clamped into [2, 8]; a weight entry of 0
or an empty field is coerced to the no-link sentinel while any other
integer — including negative ones — passes through; every built link
joins two in-range nodes with the smaller first and carries the matrix
value as weight; the link list holds at most one link per unordered
pair; and the distance-change handler keeps the matrix symmetric. -/
def C7Concl (m0 : Nat → Nat → Int) (i0 j0 : Nat) (v0 : Int) : Prop :=
  (∀ raw : Int, 2 ≤ nodeCountInput raw ∧ nodeCountInput raw ≤ 8) ∧
  (parseIntOr none = INFINITY ∧ parseIntOr (some 0) = INFINITY ∧
    ∀ x : Int, x ≠ 0 → parseIntOr (some x) = x) ∧
  (∀ (N : Nat) (m : Nat → Nat → Int) (l : Link), l ∈ (handleSetupComplete N m).1 →
    l.from_ < l.to_ ∧ l.to_ < N ∧ l.weight = m l.to_ l.from_) ∧
  (∀ (N : Nat) (m : Nat → Nat → Int) (l1 l2 : Link),
    l1 ∈ (handleSetupComplete N m).1 → l2 ∈ (handleSetupComplete N m).1 →
    l1.from_ = l2.from_ → l1.to_ = l2.to_ → l1 = l2) ∧
  (∀ a b, handleDistanceChange m0 i0 j0 v0 a b = handleDistanceChange m0 i0 j0 v0 b a)

/-! ## Claim C8 -/
/-- Conclusion of claim C8: pairs with no connecting walk keep the
unreachable sentinel and the `'-'` next hop at convergence; no
converged distance exceeds the sentinel; and a candidate built from an
unreachable neighbor (link weight + sentinel) never beats the running
minimum in a scan step. -/
def C8Concl (N : Nat) (links : List Link) : Prop :=
  (∀ n d, n < N → d < N → n ≠ d → ¬ Reachable links n d →
    ((updateRoutingTables N links initTable).table n d).distance = INFINITY ∧
    ((updateRoutingTables N links initTable).table n d).nextHop = none) ∧
  (∀ n d, n < N → d < N → n ≠ d →
    ((updateRoutingTables N links initTable).table n d).distance ≤ INFINITY) ∧
  (∀ (t : Table) (n d : Nat) (acc : Int × Option Nat × Bool) (l : Link),
    1 ≤ l.weight → acc.1 ≤ INFINITY → readDist t (otherEnd l n) d = INFINITY →
    considerLink t n d acc l = acc)

/-! ## Basic lemmas about the engine's primitive steps -/
theorem setEntry_same (t : Table) (n d : Nat) (e : Entry) :
    setEntry t n d e n d = e := by
  simp [setEntry]

theorem setEntry_ne (t : Table) (n d : Nat) (e : Entry) (a b : Nat)
    (h : ¬(a = n ∧ b = d)) : setEntry t n d e a b = t a b := by
  simp [setEntry, h]

theorem considerLink_fst_le (t : Table) (n d : Nat)
    (acc : Int × Option Nat × Bool) (l : Link) :
    (considerLink t n d acc l).1 ≤ acc.1 := by
  unfold considerLink
  split
  · dsimp only
    split
    · exact le_of_lt (by assumption)
    · exact le_refl _
  · exact le_refl _

theorem scanLinks_fst_le (links : List Link) (t : Table) (n d : Nat) :
    ∀ acc, (scanLinks links t n d acc).1 ≤ acc.1 := by
  induction links with
  | nil => intro acc; exact le_refl _
  | cons l ls ih =>
    intro acc
    exact le_trans (ih (considerLink t n d acc l)) (considerLink_fst_le t n d acc l)

theorem relaxPair_apply_ne (links : List Link) (t : Table) (n d a b : Nat)
    (h : ¬(a = n ∧ b = d)) : (relaxPair links t n d).1 a b = t a b := by
  unfold relaxPair
  dsimp only
  rw [setEntry_ne _ _ _ _ _ _ h, setEntry_ne _ _ _ _ _ _ h]

theorem relaxPair_apply_same (links : List Link) (t : Table) (n d : Nat) :
    (relaxPair links t n d).1 n d =
      let t1 := setEntry t n d { t n d with isProcessing := true }
      let r := scanLinks links t1 n d ((t n d).distance, (t n d).nextHop, false)
      ⟨r.1, r.2.1, decide (r.1 ≠ (t n d).distance), false, true⟩ := by
  unfold relaxPair
  dsimp only
  rw [setEntry_same, setEntry_same]

theorem relaxPair_distance_le (links : List Link) (t : Table) (n d a b : Nat) :
    ((relaxPair links t n d).1 a b).distance ≤ (t a b).distance := by
  by_cases h : a = n ∧ b = d
  · obtain ⟨rfl, rfl⟩ := h
    rw [relaxPair_apply_same]
    dsimp only
    have := scanLinks_fst_le links (setEntry t a b { t a b with isProcessing := true })
      a b ((t a b).distance, (t a b).nextHop, false)
    exact this
  · rw [relaxPair_apply_ne _ _ _ _ _ _ h]

theorem relaxDest_distance_le (links : List Link) (acc : Table × Bool) (n d a b : Nat) :
    ((relaxDest links acc n d).1 a b).distance ≤ (acc.1 a b).distance := by
  unfold relaxDest
  split
  · exact le_refl _
  · exact relaxPair_distance_le links acc.1 n d a b

theorem foldPairs_distance_le (links : List Link) (L : List (Nat × Nat)) :
    ∀ (acc : Table × Bool) (a b : Nat),
      ((L.foldl (fun acc p => relaxDest links acc p.1 p.2) acc).1 a b).distance ≤
        (acc.1 a b).distance := by
  induction L with
  | nil => intro acc a b; exact le_refl _
  | cons p L ih =>
    intro acc a b
    exact le_trans (ih (relaxDest links acc p.1 p.2) a b)
      (relaxDest_distance_le links acc p.1 p.2 a b)

theorem passOnce_distance_le (links : List Link) (N : Nat) (t : Table) (a b : Nat) :
    ((passOnce links N t).1 a b).distance ≤ (t a b).distance :=
  foldPairs_distance_le links (pairList N) (t, false) a b

theorem relaxLoop_distance_le (links : List Link) (N : Nat) :
    ∀ (fuel : Nat) (t : Table) (a b : Nat),
      ((relaxLoop links N fuel t).1 a b).distance ≤ (t a b).distance := by
  intro fuel
  induction fuel with
  | zero => intro t a b; exact le_refl _
  | succ fuel ih =>
    intro t a b
    unfold relaxLoop
    dsimp only
    split
    · exact le_trans (ih (passOnce links N t).1 a b) (passOnce_distance_le links N t a b)
    · exact passOnce_distance_le links N t a b

/-! ## What a change-free pass means -/
theorem considerLink_flag_mono (t : Table) (n d : Nat)
    (acc : Int × Option Nat × Bool) (l : Link) (h : acc.2.2 = true) :
    (considerLink t n d acc l).2.2 = true := by
  unfold considerLink
  split
  · dsimp only
    split
    · rfl
    · exact h
  · exact h

theorem scanLinks_flag_mono (links : List Link) (t : Table) (n d : Nat) :
    ∀ acc, acc.2.2 = true → (scanLinks links t n d acc).2.2 = true := by
  induction links with
  | nil => intro acc h; exact h
  | cons l ls ih =>
    intro acc h
    exact ih (considerLink t n d acc l) (considerLink_flag_mono t n d acc l h)

theorem scanLinks_false (t : Table) (n d : Nat) :
    ∀ (links : List Link) (acc : Int × Option Nat × Bool),
      (scanLinks links t n d acc).2.2 = false →
      scanLinks links t n d acc = acc ∧
        ∀ l ∈ links, (l.from_ = n ∨ l.to_ = n) →
          acc.1 ≤ l.weight + readDist t (otherEnd l n) d := by
  intro links
  induction links with
  | nil => intro acc _; exact ⟨rfl, by simp⟩
  | cons l ls ih =>
    intro acc hfl
    by_cases hinc : l.from_ = n ∨ l.to_ = n
    · by_cases hlt : l.weight + readDist t (otherEnd l n) d < acc.1
      · exfalso
        have hstep : considerLink t n d acc l =
            (l.weight + readDist t (otherEnd l n) d, some (otherEnd l n), true) := by
          unfold considerLink
          rw [if_pos hinc, if_pos hlt]
        have : (scanLinks ls t n d (considerLink t n d acc l)).2.2 = true := by
          apply scanLinks_flag_mono
          rw [hstep]
        have heq : scanLinks (l :: ls) t n d acc =
            scanLinks ls t n d (considerLink t n d acc l) := rfl
        rw [heq, this] at hfl
        exact absurd hfl (by simp)
      · have hstep : considerLink t n d acc l = acc := by
          unfold considerLink
          rw [if_pos hinc, if_neg hlt]
        have heq : scanLinks (l :: ls) t n d acc =
            scanLinks ls t n d (considerLink t n d acc l) := rfl
        rw [heq, hstep] at hfl ⊢
        obtain ⟨h1, h2⟩ := ih acc hfl
        refine ⟨h1, ?_⟩
        intro l' hl' hinc'
        rw [List.mem_cons] at hl'
        rcases hl' with rfl | hl'
        · exact le_of_not_lt hlt
        · exact h2 l' hl' hinc'
    · have hstep : considerLink t n d acc l = acc := by
        unfold considerLink
        rw [if_neg hinc]
      have heq : scanLinks (l :: ls) t n d acc =
          scanLinks ls t n d (considerLink t n d acc l) := rfl
      rw [heq, hstep] at hfl ⊢
      obtain ⟨h1, h2⟩ := ih acc hfl
      refine ⟨h1, ?_⟩
      intro l' hl' hinc'
      rw [List.mem_cons] at hl'
      rcases hl' with rfl | hl'
      · exact absurd hinc' hinc
      · exact h2 l' hl' hinc'

theorem setProcessing_distance (t : Table) (n d a b : Nat) :
    ((setEntry t n d { t n d with isProcessing := true }) a b).distance =
      (t a b).distance := by
  by_cases h : a = n ∧ b = d
  · obtain ⟨rfl, rfl⟩ := h; rw [setEntry_same]
  · rw [setEntry_ne _ _ _ _ _ _ h]

theorem setProcessing_nextHop (t : Table) (n d a b : Nat) :
    ((setEntry t n d { t n d with isProcessing := true }) a b).nextHop =
      (t a b).nextHop := by
  by_cases h : a = n ∧ b = d
  · obtain ⟨rfl, rfl⟩ := h; rw [setEntry_same]
  · rw [setEntry_ne _ _ _ _ _ _ h]

theorem readDist_congr (t s : Table)
    (h : ∀ a b, (s a b).distance = (t a b).distance) (x y : Nat) :
    readDist s x y = readDist t x y := by
  unfold readDist
  rw [h]

theorem relaxPair_false (links : List Link) (t : Table) (n d : Nat)
    (h : (relaxPair links t n d).2 = false) :
    (∀ a b, ((relaxPair links t n d).1 a b).distance = (t a b).distance ∧
      ((relaxPair links t n d).1 a b).nextHop = (t a b).nextHop) ∧
    ∀ l ∈ links, (l.from_ = n ∨ l.to_ = n) →
      (t n d).distance ≤ l.weight + readDist t (otherEnd l n) d := by
  have hrd : ∀ x y, readDist (setEntry t n d { t n d with isProcessing := true }) x y =
      readDist t x y :=
    readDist_congr t _ (fun a b => setProcessing_distance t n d a b)
  have hsc := scanLinks_false (setEntry t n d { t n d with isProcessing := true }) n d
    links ((t n d).distance, (t n d).nextHop, false)
  have hflag : (scanLinks links (setEntry t n d { t n d with isProcessing := true })
      n d ((t n d).distance, (t n d).nextHop, false)).2.2 = false := by
    have : (relaxPair links t n d).2 =
        (scanLinks links (setEntry t n d { t n d with isProcessing := true })
          n d ((t n d).distance, (t n d).nextHop, false)).2.2 := by
      unfold relaxPair
      dsimp only
      rw [setEntry_same]
    rw [← this]; exact h
  obtain ⟨heq, hbell⟩ := hsc hflag
  constructor
  · intro a b
    by_cases hab : a = n ∧ b = d
    · obtain ⟨rfl, rfl⟩ := hab
      rw [relaxPair_apply_same]
      dsimp only
      exact ⟨congrArg Prod.fst heq, congrArg (fun p => p.2.1) heq⟩
    · rw [relaxPair_apply_ne _ _ _ _ _ _ hab]
      exact ⟨rfl, rfl⟩
  · intro l hl hinc
    have := hbell l hl hinc
    rw [hrd] at this
    exact this

theorem foldPairs_flag_mono (links : List Link) (L : List (Nat × Nat)) :
    ∀ (acc : Table × Bool), acc.2 = true →
      (L.foldl (fun acc p => relaxDest links acc p.1 p.2) acc).2 = true := by
  induction L with
  | nil => intro acc h; exact h
  | cons p L ih =>
    intro acc h
    apply ih
    show (relaxDest links acc p.1 p.2).2 = true
    unfold relaxDest
    split
    · exact h
    · dsimp only; rw [h]; rfl

theorem mem_pairList (N : Nat) (n d : Nat) :
    (n, d) ∈ pairList N ↔ n < N ∧ d < N := by
  unfold pairList
  rw [List.mem_flatMap]
  constructor
  · rintro ⟨a, ha, hmem⟩
    rw [List.mem_map] at hmem
    obtain ⟨b, hb, heq⟩ := hmem
    cases heq
    rw [List.mem_range] at ha hb
    exact ⟨ha, hb⟩
  · rintro ⟨hn, hd⟩
    exact ⟨n, List.mem_range.mpr hn, List.mem_map.mpr
      ⟨d, List.mem_range.mpr hd, rfl⟩⟩

theorem foldPairs_false (links : List Link) (L : List (Nat × Nat)) :
    ∀ (t : Table),
      ((L.foldl (fun acc p => relaxDest links acc p.1 p.2) (t, false)).2 = false) →
      (∀ a b, ((L.foldl (fun acc p => relaxDest links acc p.1 p.2) (t, false)).1 a b).distance
          = (t a b).distance ∧
        ((L.foldl (fun acc p => relaxDest links acc p.1 p.2) (t, false)).1 a b).nextHop
          = (t a b).nextHop) ∧
      ∀ p ∈ L, p.1 ≠ p.2 → ∀ l ∈ links, (l.from_ = p.1 ∨ l.to_ = p.1) →
        (t p.1 p.2).distance ≤ l.weight + readDist t (otherEnd l p.1) p.2 := by
  induction L with
  | nil => intro t _; exact ⟨fun a b => ⟨rfl, rfl⟩, by simp⟩
  | cons p L ih =>
    intro t hfl
    by_cases hnd : p.1 = p.2
    · have hstep : relaxDest links (t, false) p.1 p.2 = (t, false) := by
        unfold relaxDest; rw [if_pos hnd]
      have heq : (p :: L).foldl (fun acc p => relaxDest links acc p.1 p.2) (t, false) =
          L.foldl (fun acc p => relaxDest links acc p.1 p.2) (t, false) := by
        show L.foldl _ (relaxDest links (t, false) p.1 p.2) = _
        rw [hstep]
      rw [heq] at hfl
      obtain ⟨h1, h2⟩ := ih t hfl
      rw [heq]
      refine ⟨h1, ?_⟩
      intro q hq hq12
      rw [List.mem_cons] at hq
      rcases hq with rfl | hq
      · exact absurd hnd hq12
      · exact h2 q hq hq12
    · have hstep : relaxDest links (t, false) p.1 p.2 =
          ((relaxPair links t p.1 p.2).1, (relaxPair links t p.1 p.2).2) := by
        unfold relaxDest
        rw [if_neg hnd]
        rfl
      have hr2 : (relaxPair links t p.1 p.2).2 = false := by
        by_contra hcon
        have hcon' : (relaxPair links t p.1 p.2).2 = true := by
          cases hval : (relaxPair links t p.1 p.2).2
          · exact absurd hval hcon
          · rfl
        have : ((p :: L).foldl (fun acc p => relaxDest links acc p.1 p.2) (t, false)).2
            = true := by
          show (L.foldl _ (relaxDest links (t, false) p.1 p.2)).2 = true
          apply foldPairs_flag_mono
          rw [hstep]
          exact hcon'
        rw [hfl] at this
        exact absurd this (by simp)
      obtain ⟨hpres, hbell⟩ := relaxPair_false links t p.1 p.2 hr2
      have heq : (p :: L).foldl (fun acc p => relaxDest links acc p.1 p.2) (t, false) =
          L.foldl (fun acc p => relaxDest links acc p.1 p.2)
            ((relaxPair links t p.1 p.2).1, false) := by
        show L.foldl _ (relaxDest links (t, false) p.1 p.2) = _
        rw [hstep, hr2]
      rw [heq] at hfl ⊢
      obtain ⟨h1, h2⟩ := ih (relaxPair links t p.1 p.2).1 hfl
      have hpt : ∀ a b,
          ((L.foldl (fun acc p => relaxDest links acc p.1 p.2)
            ((relaxPair links t p.1 p.2).1, false)).1 a b).distance = (t a b).distance ∧
          ((L.foldl (fun acc p => relaxDest links acc p.1 p.2)
            ((relaxPair links t p.1 p.2).1, false)).1 a b).nextHop = (t a b).nextHop := by
        intro a b
        obtain ⟨e1, e2⟩ := h1 a b
        obtain ⟨f1, f2⟩ := hpres a b
        exact ⟨e1.trans f1, e2.trans f2⟩
      refine ⟨hpt, ?_⟩
      intro q hq hq12
      rw [List.mem_cons] at hq
      rcases hq with rfl | hq
      · exact hbell
      · intro l hl hinc
        have := h2 q hq hq12 l hl hinc
        have hdq : ((relaxPair links t p.1 p.2).1 q.1 q.2).distance = (t q.1 q.2).distance :=
          (hpres q.1 q.2).1
        have hrdq : readDist (relaxPair links t p.1 p.2).1 (otherEnd l q.1) q.2 =
            readDist t (otherEnd l q.1) q.2 :=
          readDist_congr t _ (fun a b => (hpres a b).1) _ _
        rw [hdq, hrdq] at this
        exact this

theorem passOnce_false (links : List Link) (N : Nat) (t : Table)
    (h : (passOnce links N t).2 = false) :
    (∀ a b, ((passOnce links N t).1 a b).distance = (t a b).distance ∧
      ((passOnce links N t).1 a b).nextHop = (t a b).nextHop) ∧
    ∀ n d, n < N → d < N → n ≠ d → ∀ l ∈ links, (l.from_ = n ∨ l.to_ = n) →
      (t n d).distance ≤ l.weight + readDist t (otherEnd l n) d := by
  obtain ⟨h1, h2⟩ := foldPairs_false links (pairList N) t h
  refine ⟨h1, ?_⟩
  intro n d hn hd hnd
  exact h2 (n, d) ((mem_pairList N n d).mpr ⟨hn, hd⟩) hnd

/-! ## Graph lemmas under `ValidSession` -/
theorem validSession_mem {N : Nat} {links : List Link} (hv : ValidSession N links)
    {l : Link} (hl : l ∈ links) :
    l.from_ < l.to_ ∧ l.to_ < N ∧ 1 ≤ l.weight ∧ l.weight < INFINITY :=
  hv.2.2.1 l hl

theorem pairwise_links_unique :
    ∀ (links : List Link),
      links.Pairwise (fun l1 l2 => l1.from_ ≠ l2.from_ ∨ l1.to_ ≠ l2.to_) →
      ∀ l1 ∈ links, ∀ l2 ∈ links, l1.from_ = l2.from_ → l1.to_ = l2.to_ → l1 = l2 := by
  intro links
  induction links with
  | nil => intro _ l1 h1; exact absurd h1 (by simp)
  | cons a ls ih =>
    intro hpw l1 h1 l2 h2 hf ht
    rw [List.pairwise_cons] at hpw
    rw [List.mem_cons] at h1 h2
    rcases h1 with rfl | h1 <;> rcases h2 with rfl | h2
    · rfl
    · rcases hpw.1 l2 h2 with h | h
      · exact absurd hf h
      · exact absurd ht h
    · rcases hpw.1 l1 h1 with h | h
      · exact absurd hf.symm h
      · exact absurd ht.symm h
    · exact ih hpw.2 l1 h1 l2 h2 hf ht

theorem links_pair_unique {N : Nat} {links : List Link} (hv : ValidSession N links) :
    ∀ l1 ∈ links, ∀ l2 ∈ links, l1.from_ = l2.from_ → l1.to_ = l2.to_ → l1 = l2 :=
  pairwise_links_unique links hv.2.2.2

theorem adjacent_lt {N : Nat} {links : List Link} (hv : ValidSession N links)
    {a b : Nat} (h : Adjacent links a b) : a < N ∧ b < N ∧ a ≠ b := by
  obtain ⟨l, hl, hor⟩ := h
  obtain ⟨hft, htN, _, _⟩ := validSession_mem hv hl
  rcases hor with ⟨rfl, rfl⟩ | ⟨rfl, rfl⟩
  · exact ⟨lt_trans hft htN, htN, Nat.ne_of_lt hft⟩
  · exact ⟨htN, lt_trans hft htN, (Nat.ne_of_lt hft).symm⟩

theorem adjacent_symm {links : List Link} {a b : Nat} (h : Adjacent links a b) :
    Adjacent links b a := by
  obtain ⟨l, hl, hor⟩ := h
  exact ⟨l, hl, hor.symm⟩

theorem wt_adjW {N : Nat} {links : List Link} (hv : ValidSession N links)
    {a b : Nat} {w : Int} (h : AdjW links a b w) : wt links a b = w := by
  obtain ⟨l, hl, hor, hw⟩ := h
  have hpred : (fun l : Link => (l.from_ == a && l.to_ == b) ||
      (l.from_ == b && l.to_ == a)) l = true := by
    rcases hor with ⟨h1, h2⟩ | ⟨h1, h2⟩ <;> simp [h1, h2]
  have hsome : (links.find? (fun l : Link => (l.from_ == a && l.to_ == b) ||
      (l.from_ == b && l.to_ == a))).isSome := by
    rw [List.find?_isSome]
    exact ⟨l, hl, hpred⟩
  obtain ⟨l', hl'⟩ := Option.isSome_iff_exists.mp hsome
  have hl'mem : l' ∈ links := List.mem_of_find?_eq_some hl'
  have hl'pred := List.find?_some hl'
  have hleq : l' = l := by
    simp only [Bool.or_eq_true, Bool.and_eq_true, beq_iff_eq] at hl'pred
    obtain ⟨hft, _, _, _⟩ := validSession_mem hv hl
    obtain ⟨hft', _, _, _⟩ := validSession_mem hv hl'mem
    rcases hor with ⟨h1, h2⟩ | ⟨h1, h2⟩ <;>
      rcases hl'pred with ⟨g1, g2⟩ | ⟨g1, g2⟩
    · exact links_pair_unique hv l' hl'mem l hl (g1.trans h1.symm) (g2.trans h2.symm)
    · exfalso; omega
    · exfalso; omega
    · exact links_pair_unique hv l' hl'mem l hl (g1.trans h1.symm) (g2.trans h2.symm)
  unfold wt
  rw [hl']
  show l'.weight = w
  rw [hleq, hw]

theorem adjacent_adjW {links : List Link} {a b : Nat} (h : Adjacent links a b) :
    ∃ w, AdjW links a b w ∧ ∃ l ∈ links, l.weight = w := by
  obtain ⟨l, hl, hor⟩ := h
  exact ⟨l.weight, ⟨l, hl, hor, rfl⟩, l, hl, rfl⟩

theorem wt_pos {N : Nat} {links : List Link} (hv : ValidSession N links)
    {a b : Nat} (h : Adjacent links a b) : 1 ≤ wt links a b := by
  obtain ⟨w, hadj, l, hl, hw⟩ := adjacent_adjW h
  rw [wt_adjW hv hadj, ← hw]
  exact (validSession_mem hv hl).2.2.1

theorem walkCost_nonneg {N : Nat} {links : List Link} (hv : ValidSession N links) :
    ∀ vs : List Nat, vs.Chain' (Adjacent links) → 0 ≤ walkCost links vs := by
  intro vs
  induction vs with
  | nil => intro _; simp [walkCost]
  | cons a tail ih =>
    intro hch
    cases tail with
    | nil => simp [walkCost]
    | cons b rest =>
      rw [List.chain'_cons] at hch
      have h1 : 1 ≤ wt links a b := wt_pos hv hch.1
      have h2 : 0 ≤ walkCost links (b :: rest) := ih hch.2
      show 0 ≤ wt links a b + walkCost links (b :: rest)
      omega

theorem isWalk_cons {links : List Link}
    {n h d : Nat} {vs : List Nat} (hadj : Adjacent links n h)
    (hw : IsWalk links h d vs) :
    IsWalk links n d (n :: vs) ∧
      walkCost links (n :: vs) = wt links n h + walkCost links vs := by
  obtain ⟨hh, hlast, hch⟩ := hw
  cases vs with
  | nil => exact absurd hh (by simp)
  | cons x rest =>
    have hx : x = h := by simpa using hh
    subst hx
    constructor
    · refine ⟨rfl, ?_, ?_⟩
      · rw [List.getLast?_cons_cons]; exact hlast
      · rw [List.chain'_cons]; exact ⟨hadj, hch⟩
    · rfl

theorem walk_singleton {links : List Link} {n d : Nat}
    (h : IsWalk links n d [n]) : n = d := by
  obtain ⟨_, hlast, _⟩ := h
  simpa using hlast

theorem entryInv_initTable (links : List Link) (N : Nat) :
    EntryInv links N initTable := by
  intro n d _ _ _
  refine ⟨by norm_num [initTable, initEntry, INFINITY], le_refl _, fun _ => rfl, ?_⟩
  intro hlt
  exact absurd hlt (lt_irrefl _)

theorem entryInv_congr {links : List Link} {N : Nat} {t s : Table}
    (h : ∀ a b, (s a b).distance = (t a b).distance ∧
      (s a b).nextHop = (t a b).nextHop)
    (hInv : EntryInv links N t) : EntryInv links N s := by
  intro n d hn hd hnd
  obtain ⟨h1, h2⟩ := h n d
  rw [h1, h2]
  exact hInv n d hn hd hnd

/-- A finite invariant entry is the cost of an actual walk. -/
theorem inv_entry_walk {N : Nat} {links : List Link} (hv : ValidSession N links)
    {n d h : Nat} {w dh : Int} (hAdj : AdjW links n h w) (hdh : GoodHop links d h dh) :
    ∃ vs, IsWalk links n d vs ∧ walkCost links vs = w + dh := by
  have hadj : Adjacent links n h := by
    obtain ⟨l, hl, hor, _⟩ := hAdj
    exact ⟨l, hl, hor⟩
  by_cases hhd : h = d
  · subst hhd
    unfold GoodHop at hdh
    rw [if_pos rfl] at hdh
    subst hdh
    refine ⟨[n, h], ⟨rfl, rfl, ?_⟩, ?_⟩
    · rw [List.chain'_cons]
      exact ⟨hadj, List.chain'_singleton h⟩
    · show wt links n h + walkCost links [h] = w + 0
      rw [wt_adjW hv hAdj]
      simp [walkCost]
  · unfold GoodHop at hdh
    rw [if_neg hhd] at hdh
    obtain ⟨vs, hwalk, hcost⟩ := hdh
    obtain ⟨hw2, hc2⟩ := isWalk_cons hadj hwalk
    exact ⟨n :: vs, hw2, by rw [hc2, hcost, wt_adjW hv hAdj]⟩

theorem otherEnd_lt {N : Nat} {links : List Link} (hv : ValidSession N links)
    {l : Link} (hl : l ∈ links) {n : Nat} (hinc : l.from_ = n ∨ l.to_ = n) :
    otherEnd l n < N := by
  obtain ⟨hft, htN, _, _⟩ := validSession_mem hv hl
  unfold otherEnd
  split
  · exact htN
  · rcases hinc with h | h
    · exact absurd h (by assumption)
    · omega

theorem otherEnd_adjW {N : Nat} {links : List Link} (hv : ValidSession N links)
    {l : Link} (hl : l ∈ links) {n : Nat} (hinc : l.from_ = n ∨ l.to_ = n) :
    AdjW links n (otherEnd l n) l.weight := by
  obtain ⟨hft, _, _, _⟩ := validSession_mem hv hl
  refine ⟨l, hl, ?_, rfl⟩
  unfold otherEnd
  split
  · left; exact ⟨by assumption, rfl⟩
  · rcases hinc with h | h
    · exact absurd h (by assumption)
    · right; exact ⟨rfl, h⟩

theorem considerLink_scanAcc {N : Nat} {links : List Link}
    (hv : ValidSession N links) {t : Table} (hInv : EntryInv links N t)
    {n d : Nat} (hd : d < N) {acc : Int × Option Nat × Bool} {l : Link}
    (hl : l ∈ links) (hacc : ScanAcc links N t n d acc) :
    ScanAcc links N t n d (considerLink t n d acc l) := by
  unfold considerLink
  split
  · dsimp only
    split
    · rename_i hinc hlt
      obtain ⟨ha1, ha2, _⟩ := hacc
      have hw1 : 1 ≤ l.weight := (validSession_mem hv hl).2.2.1
      have hhd : otherEnd l n ≠ d := by
        intro hcon
        rw [readDist, if_pos hcon] at hlt
        omega
      have hrd : readDist t (otherEnd l n) d = (t (otherEnd l n) d).distance := by
        rw [readDist, if_neg hhd]
        unfold jsOr
        split
        · rename_i h0
          have := (hInv (otherEnd l n) d (otherEnd_lt hv hl hinc) hd hhd).1
          omega
        · rfl
      have hhN : otherEnd l n < N := otherEnd_lt hv hl hinc
      obtain ⟨hd1, hd2, _, hdfin⟩ := hInv (otherEnd l n) d hhN hd hhd
      have hrdlt : (t (otherEnd l n) d).distance < INFINITY := by
        rw [hrd] at hlt
        omega
      obtain ⟨h', w', dh', hop', hN', adj', dh0', eq', good'⟩ := hdfin hrdlt
      obtain ⟨vsh, hwalkh, hcosth⟩ := inv_entry_walk hv adj' good'
      refine ⟨by rw [hrd]; omega, by rw [hrd]; omega,
        Or.inr ⟨by rw [hrd]; omega, ?_⟩⟩
      refine ⟨otherEnd l n, l.weight, (t (otherEnd l n) d).distance, rfl, hhN,
        otherEnd_adjW hv hl hinc, by omega, by rw [hrd], ?_⟩
      unfold GoodHop
      rw [if_neg hhd]
      exact ⟨vsh, hwalkh, by rw [hcosth, ← eq']⟩
    · exact hacc
  · exact hacc

theorem scanLinks_scanAcc {N : Nat} {links : List Link}
    (hv : ValidSession N links) {t : Table} (hInv : EntryInv links N t)
    {n d : Nat} (hd : d < N) :
    ∀ (ls : List Link), (∀ l ∈ ls, l ∈ links) →
      ∀ acc, ScanAcc links N t n d acc →
        ScanAcc links N t n d (scanLinks ls t n d acc) := by
  intro ls
  induction ls with
  | nil => intro _ acc hacc; exact hacc
  | cons l ls2 ih =>
    intro hsub acc hacc
    have h1 : l ∈ links := hsub l (by simp)
    have h2 : ∀ l2 ∈ ls2, l2 ∈ links := fun l2 hl2 => hsub l2 (by simp [hl2])
    exact ih h2 (considerLink t n d acc l)
      (considerLink_scanAcc hv hInv hd h1 hacc)

theorem relaxPair_inv {N : Nat} {links : List Link} (hv : ValidSession N links)
    {t : Table} (hInv : EntryInv links N t) {n d : Nat} (hd : d < N) :
    EntryInv links N (relaxPair links t n d).1 := by
  have hInv1 : EntryInv links N
      (setEntry t n d { t n d with isProcessing := true }) :=
    entryInv_congr
      (fun a b => ⟨setProcessing_distance t n d a b, setProcessing_nextHop t n d a b⟩)
      hInv
  intro a b haN hbN hab
  by_cases hcell : a = n ∧ b = d
  · obtain ⟨rfl, rfl⟩ := hcell
    rw [relaxPair_apply_same]
    dsimp only
    have hold := hInv a b haN hbN hab
    have hacc0 : ScanAcc links N (setEntry t a b { t a b with isProcessing := true })
        a b ((t a b).distance, (t a b).nextHop, false) := by
      refine ⟨hold.1, hold.2.1, Or.inl ?_⟩
      rw [setProcessing_distance, setProcessing_nextHop]
      exact ⟨rfl, rfl⟩
    have hres := scanLinks_scanAcc hv hInv1 hbN links (fun l hl => hl) _ hacc0
    obtain ⟨hr1, hr2, hr3⟩ := hres
    refine ⟨hr1, hr2, ?_, ?_⟩
    · intro hINF
      rcases hr3 with ⟨he1, he2⟩ | ⟨hlt, _⟩
      · rw [he2, setProcessing_nextHop]
        apply (hold.2.2.1)
        rw [← setProcessing_distance t a b a b, ← he1]
        exact hINF
      · rw [hINF] at hlt
        exact absurd hlt (lt_irrefl _)
    · intro hfin
      rcases hr3 with ⟨he1, he2⟩ | ⟨_, hwit⟩
      · rw [setProcessing_distance] at he1
        rw [setProcessing_nextHop] at he2
        rw [he1] at hfin
        obtain ⟨h, w, dh, hhop, hN, hadj, hdh, heq, hgood⟩ := hold.2.2.2 hfin
        exact ⟨h, w, dh, he2.trans hhop, hN, hadj, hdh, he1.trans heq, hgood⟩
      · exact hwit
  · rw [relaxPair_apply_ne _ _ _ _ _ _ hcell]
    exact hInv a b haN hbN hab

theorem relaxDest_inv {N : Nat} {links : List Link} (hv : ValidSession N links)
    {acc : Table × Bool} (hInv : EntryInv links N acc.1) {n d : Nat} (hd : d < N) :
    EntryInv links N (relaxDest links acc n d).1 := by
  unfold relaxDest
  split
  · exact hInv
  · exact relaxPair_inv hv hInv hd

theorem foldPairs_inv {N : Nat} {links : List Link} (hv : ValidSession N links) :
    ∀ (L : List (Nat × Nat)), (∀ p ∈ L, p.2 < N) →
      ∀ (acc : Table × Bool), EntryInv links N acc.1 →
        EntryInv links N
          ((L.foldl (fun acc p => relaxDest links acc p.1 p.2) acc).1) := by
  intro L
  induction L with
  | nil => intro _ acc h; exact h
  | cons p L ih =>
    intro hL acc hInv
    have hp : p.2 < N := hL p (by simp)
    have hL2 : ∀ q ∈ L, q.2 < N := fun q hq => hL q (by simp [hq])
    exact ih hL2 (relaxDest links acc p.1 p.2) (relaxDest_inv hv hInv hp)

theorem passOnce_inv {N : Nat} {links : List Link} (hv : ValidSession N links)
    {t : Table} (hInv : EntryInv links N t) :
    EntryInv links N (passOnce links N t).1 := by
  apply foldPairs_inv hv (pairList N) _ (t, false) hInv
  intro p hp
  cases p with
  | mk a b => exact ((mem_pairList N a b).mp hp).2

theorem relaxLoop_inv {N : Nat} {links : List Link} (hv : ValidSession N links) :
    ∀ (fuel : Nat) (t : Table), EntryInv links N t →
      EntryInv links N (relaxLoop links N fuel t).1 := by
  intro fuel
  induction fuel with
  | zero => intro t h; exact h
  | succ fuel ih =>
    intro t hInv
    unfold relaxLoop
    dsimp only
    split
    · exact ih (passOnce links N t).1 (passOnce_inv hv hInv)
    · exact passOnce_inv hv hInv

theorem initLink_inv {N : Nat} {links : List Link} (hv : ValidSession N links)
    {t : Table} (hInv : EntryInv links N t) {l : Link} (hl : l ∈ links) :
    EntryInv links N (initLink t l) := by
  obtain ⟨hft, htN, hw1, hwINF⟩ := validSession_mem hv hl
  intro a b haN hbN hab
  unfold initLink
  by_cases hc2 : a = l.to_ ∧ b = l.from_
  · obtain ⟨rfl, rfl⟩ := hc2
    rw [setEntry_same]
    refine ⟨hw1, le_of_lt hwINF, fun h => absurd (show l.weight = INFINITY from h) (by omega), ?_⟩
    intro _
    refine ⟨l.from_, l.weight, 0, rfl, lt_trans hft htN, ⟨l, hl, Or.inr ⟨rfl, rfl⟩, rfl⟩,
      le_refl 0, show l.weight = l.weight + 0 by omega, ?_⟩
    unfold GoodHop
    rw [if_pos rfl]
  · rw [setEntry_ne _ _ _ _ _ _ hc2]
    by_cases hc1 : a = l.from_ ∧ b = l.to_
    · obtain ⟨rfl, rfl⟩ := hc1
      rw [setEntry_same]
      refine ⟨hw1, le_of_lt hwINF, fun h => absurd (show l.weight = INFINITY from h) (by omega), ?_⟩
      intro _
      refine ⟨l.to_, l.weight, 0, rfl, htN, ⟨l, hl, Or.inl ⟨rfl, rfl⟩, rfl⟩,
        le_refl 0, show l.weight = l.weight + 0 by omega, ?_⟩
      unfold GoodHop
      rw [if_pos rfl]
    · rw [setEntry_ne _ _ _ _ _ _ hc1]
      exact hInv a b haN hbN hab

theorem initPhase_inv {N : Nat} {links : List Link} (hv : ValidSession N links) :
    ∀ (ls : List Link), (∀ l ∈ ls, l ∈ links) →
      ∀ (t : Table), EntryInv links N t → EntryInv links N (initPhase ls t) := by
  intro ls
  induction ls with
  | nil => intro _ t h; exact h
  | cons l ls2 ih =>
    intro hsub t hInv
    have h1 : l ∈ links := hsub l (by simp)
    have h2 : ∀ l2 ∈ ls2, l2 ∈ links := fun l2 hl2 => hsub l2 (by simp [hl2])
    exact ih h2 (initLink t l) (initLink_inv hv hInv h1)

/-- The invariant holds of the final tables of a full run from the
fresh table. -/
theorem run_inv {N : Nat} {links : List Link} (hv : ValidSession N links) :
    EntryInv links N (updateRoutingTables N links initTable).table := by
  unfold updateRoutingTables
  dsimp only
  apply relaxLoop_inv hv
  exact initPhase_inv hv links (fun l hl => hl) initTable (entryInv_initTable links N)

theorem initPhase_untouched :
    ∀ (ls : List Link) (t : Table) (a b : Nat),
      (∀ l ∈ ls, ¬(l.from_ = a ∧ l.to_ = b) ∧ ¬(l.to_ = a ∧ l.from_ = b)) →
      (initPhase ls t) a b = t a b := by
  intro ls
  induction ls with
  | nil => intro t a b _; rfl
  | cons l ls2 ih =>
    intro t a b hcells
    have h1 := hcells l (by simp)
    have h2 : ∀ l2 ∈ ls2, ¬(l2.from_ = a ∧ l2.to_ = b) ∧ ¬(l2.to_ = a ∧ l2.from_ = b) :=
      fun l2 hl2 => hcells l2 (by simp [hl2])
    show (initPhase ls2 (initLink t l)) a b = t a b
    rw [ih (initLink t l) a b h2]
    unfold initLink
    rw [setEntry_ne, setEntry_ne]
    · intro hcon
      exact h1.1 ⟨hcon.1.symm ▸ rfl, hcon.2.symm ▸ rfl⟩
    · intro hcon
      exact h1.2 ⟨hcon.1.symm ▸ rfl, hcon.2.symm ▸ rfl⟩

theorem initPhase_cells {N : Nat} {links : List Link} (hv : ValidSession N links) :
    ∀ (ls : List Link),
      ls.Pairwise (fun l1 l2 => l1.from_ ≠ l2.from_ ∨ l1.to_ ≠ l2.to_) →
      (∀ l ∈ ls, l ∈ links) →
      ∀ (t : Table), ∀ l ∈ ls,
        (initPhase ls t) l.from_ l.to_ = ⟨l.weight, some l.to_, true, false, true⟩ ∧
        (initPhase ls t) l.to_ l.from_ = ⟨l.weight, some l.from_, true, false, true⟩ := by
  intro ls
  induction ls with
  | nil => intro _ _ t l hl; exact absurd hl (by simp)
  | cons a ls2 ih =>
    intro hpw hsub t l hl
    rw [List.pairwise_cons] at hpw
    rw [List.mem_cons] at hl
    have hsub2 : ∀ l2 ∈ ls2, l2 ∈ links := fun l2 hl2 => hsub l2 (by simp [hl2])
    rcases hl with rfl | hl
    · have hcellfacts : ∀ l2 ∈ ls2,
          ¬(l2.from_ = l.from_ ∧ l2.to_ = l.to_) ∧
          ¬(l2.to_ = l.from_ ∧ l2.from_ = l.to_) := by
        intro l2 hl2
        obtain ⟨hft2, _, _, _⟩ := validSession_mem hv (hsub2 l2 hl2)
        obtain ⟨hft, _, _, _⟩ := validSession_mem hv (hsub l (by simp))
        constructor
        · intro hcon
          rcases hpw.1 l2 hl2 with h | h
          · exact h hcon.1.symm
          · exact h hcon.2.symm
        · intro hcon
          omega
      have hcellfacts2 : ∀ l2 ∈ ls2,
          ¬(l2.from_ = l.to_ ∧ l2.to_ = l.from_) ∧
          ¬(l2.to_ = l.to_ ∧ l2.from_ = l.from_) := by
        intro l2 hl2
        obtain ⟨hft2, _, _, _⟩ := validSession_mem hv (hsub2 l2 hl2)
        obtain ⟨hft, _, _, _⟩ := validSession_mem hv (hsub l (by simp))
        constructor
        · intro hcon
          omega
        · intro hcon
          rcases hpw.1 l2 hl2 with h | h
          · exact h hcon.2.symm
          · exact h hcon.1.symm
      have e1 : (initPhase (l :: ls2) t) l.from_ l.to_ =
          (initLink t l) l.from_ l.to_ :=
        initPhase_untouched ls2 (initLink t l) l.from_ l.to_ hcellfacts
      have e2 : (initPhase (l :: ls2) t) l.to_ l.from_ =
          (initLink t l) l.to_ l.from_ :=
        initPhase_untouched ls2 (initLink t l) l.to_ l.from_ hcellfacts2
      obtain ⟨hft, _, _, _⟩ := validSession_mem hv (hsub l (by simp))
      constructor
      · rw [e1]
        unfold initLink
        rw [setEntry_ne, setEntry_same]
        intro hcon
        omega
      · rw [e2]
        unfold initLink
        rw [setEntry_same]
    · exact ih hpw.2 hsub2 (initLink t a) l hl

theorem initPhase_directLe {N : Nat} {links : List Link} (hv : ValidSession N links) :
    DirectLe links (initPhase links initTable) := by
  intro l hl
  obtain ⟨e1, e2⟩ := initPhase_cells hv links hv.2.2.2 (fun l hl => hl) initTable l hl
  rw [e1, e2]
  exact ⟨le_refl _, le_refl _⟩

theorem directLe_of_le {links : List Link} {t s : Table}
    (h : ∀ a b, (s a b).distance ≤ (t a b).distance) (hd : DirectLe links t) :
    DirectLe links s := by
  intro l hl
  obtain ⟨h1, h2⟩ := hd l hl
  exact ⟨le_trans (h _ _) h1, le_trans (h _ _) h2⟩

theorem directLe_wt {N : Nat} {links : List Link} (hv : ValidSession N links)
    {t : Table} (hDir : DirectLe links t) {a b : Nat} (hadj : Adjacent links a b) :
    (t a b).distance ≤ wt links a b := by
  obtain ⟨l, hl, hor⟩ := hadj
  have hw : wt links a b = l.weight :=
    wt_adjW hv ⟨l, hl, hor, rfl⟩
  rw [hw]
  rcases hor with ⟨h1, h2⟩ | ⟨h1, h2⟩
  · rw [← h1, ← h2]
    exact (hDir l hl).1
  · rw [← h1, ← h2]
    exact (hDir l hl).2

theorem initPhase_boundedOK {N : Nat} {links : List Link}
    (hv : ValidSession N links) :
    BoundedOK links N 1 (initPhase links initTable) := by
  intro n d vs hn hd hnd hw hlen
  obtain ⟨hh, hlast, hch⟩ := hw
  match vs, hh with
  | [x], hh =>
    have hx : x = n := by simpa using hh
    subst hx
    have : x = d := by simpa using hlast
    exact absurd this hnd
  | x :: y :: rest, hh =>
    have hx : x = n := by simpa using hh
    subst hx
    match rest, hlen with
    | [], _ =>
      have hy : y = d := by simpa using hlast
      subst hy
      rw [List.chain'_cons] at hch
      have hadj : Adjacent links x y := hch.1
      have hle := directLe_wt hv (initPhase_directLe hv) hadj
      show (initPhase links initTable x y).distance ≤ wt links x y + walkCost links [y]
      have : walkCost links [y] = 0 := rfl
      omega

theorem scanLinks_le_cand (t : Table) (n d : Nat) :
    ∀ (ls : List Link) (acc : Int × Option Nat × Bool) (l : Link), l ∈ ls →
      (l.from_ = n ∨ l.to_ = n) →
      (scanLinks ls t n d acc).1 ≤ l.weight + readDist t (otherEnd l n) d := by
  intro ls
  induction ls with
  | nil => intro acc l hl; exact absurd hl (by simp)
  | cons a ls2 ih =>
    intro acc l hl hinc
    rw [List.mem_cons] at hl
    rcases hl with rfl | hl
    · have hstep : (considerLink t n d acc l).1 ≤ l.weight + readDist t (otherEnd l n) d := by
        unfold considerLink
        rw [if_pos hinc]
        dsimp only
        split
        · exact le_refl _
        · rename_i hnot
          exact le_of_not_lt hnot
      exact le_trans (scanLinks_fst_le ls2 t n d (considerLink t n d acc l)) hstep
    · exact ih (considerLink t n d acc a) l hl hinc

theorem relaxPair_le_cand (links : List Link) (t : Table) (n d : Nat)
    (l : Link) (hl : l ∈ links) (hinc : l.from_ = n ∨ l.to_ = n) :
    ((relaxPair links t n d).1 n d).distance ≤
      l.weight + readDist t (otherEnd l n) d := by
  rw [relaxPair_apply_same]
  dsimp only
  have hrd : ∀ x y,
      readDist (setEntry t n d { t n d with isProcessing := true }) x y =
        readDist t x y :=
    readDist_congr t _ (fun a b => setProcessing_distance t n d a b)
  have := scanLinks_le_cand (setEntry t n d { t n d with isProcessing := true })
    n d links ((t n d).distance, (t n d).nextHop, false) l hl hinc
  rw [hrd] at this
  exact this

theorem readDist_mono {N : Nat} {links : List Link} {t s : Table}
    (hs : EntryInv links N s) (ht : EntryInv links N t)
    (hle : ∀ a b, (s a b).distance ≤ (t a b).distance)
    {h d : Nat} (hh : h < N) (hd : d < N) :
    readDist s h d ≤ readDist t h d := by
  unfold readDist
  by_cases hhd : h = d
  · rw [if_pos hhd, if_pos hhd]
  · rw [if_neg hhd, if_neg hhd]
    have h1 := (hs h d hh hd hhd).1
    have h2 := (ht h d hh hd hhd).1
    unfold jsOr
    rw [if_neg (by omega), if_neg (by omega)]
    exact hle h d

theorem foldPairs_le_cand {N : Nat} {links : List Link} (hv : ValidSession N links)
    {t : Table} (ht : EntryInv links N t) :
    ∀ (L : List (Nat × Nat)), (∀ p ∈ L, p.2 < N) →
      ∀ (s : Table) (fl : Bool), EntryInv links N s →
        (∀ a b, (s a b).distance ≤ (t a b).distance) →
        ∀ (n d : Nat), (n, d) ∈ L → n ≠ d → d < N →
          ∀ l ∈ links, (l.from_ = n ∨ l.to_ = n) →
            (((L.foldl (fun acc p => relaxDest links acc p.1 p.2) (s, fl)).1) n d).distance ≤
              l.weight + readDist t (otherEnd l n) d := by
  intro L
  induction L with
  | nil => intro _ s fl _ _ n d hmem; exact absurd hmem (by simp)
  | cons p L ih =>
    intro hLN s fl hs hle n d hmem hnd hd l hl hinc
    have hLN2 : ∀ q ∈ L, q.2 < N := fun q hq => hLN q (by simp [hq])
    rw [List.mem_cons] at hmem
    have hstep : (p :: L).foldl (fun acc p => relaxDest links acc p.1 p.2) (s, fl) =
        L.foldl (fun acc p => relaxDest links acc p.1 p.2)
          (relaxDest links (s, fl) p.1 p.2) := rfl
    rcases hmem with heq | hmem
    · cases heq
      have hstep2 : relaxDest links (s, fl) n d =
          ((relaxPair links s n d).1, fl || (relaxPair links s n d).2) := by
        unfold relaxDest
        rw [if_neg hnd]
      have hbound : ((relaxPair links s n d).1 n d).distance ≤
          l.weight + readDist t (otherEnd l n) d := by
        have h1 := relaxPair_le_cand links s n d l hl hinc
        have hhN : otherEnd l n < N := otherEnd_lt hv hl hinc
        have h2 : readDist s (otherEnd l n) d ≤ readDist t (otherEnd l n) d :=
          readDist_mono hs ht hle hhN hd
        omega
      have hmono : ∀ a b,
          (((L.foldl (fun acc p => relaxDest links acc p.1 p.2)
            ((relaxPair links s n d).1, fl || (relaxPair links s n d).2)).1) a b).distance ≤
            ((relaxPair links s n d).1 a b).distance :=
        fun a b => foldPairs_distance_le links L _ a b
      rw [hstep, hstep2]
      exact le_trans (hmono n d) hbound
    · rw [hstep]
      have hp2 : p.2 < N := hLN p (by simp)
      have hinv' : EntryInv links N (relaxDest links (s, fl) p.1 p.2).1 :=
        relaxDest_inv hv hs hp2
      have hle' : ∀ a b, ((relaxDest links (s, fl) p.1 p.2).1 a b).distance ≤
          (t a b).distance :=
        fun a b => le_trans (relaxDest_distance_le links (s, fl) p.1 p.2 a b) (hle a b)
      have hfold : L.foldl (fun acc p => relaxDest links acc p.1 p.2)
          (relaxDest links (s, fl) p.1 p.2) =
          L.foldl (fun acc p => relaxDest links acc p.1 p.2)
            ((relaxDest links (s, fl) p.1 p.2).1, (relaxDest links (s, fl) p.1 p.2).2) := rfl
      rw [hfold]
      exact ih hLN2 (relaxDest links (s, fl) p.1 p.2).1
        (relaxDest links (s, fl) p.1 p.2).2 hinv' hle' n d hmem hnd hd l hl hinc

theorem passOnce_boundedOK {N : Nat} {links : List Link} (hv : ValidSession N links)
    {t : Table} (hInv : EntryInv links N t) (hDir : DirectLe links t)
    {k : Nat} (hB : BoundedOK links N k t) :
    BoundedOK links N (k + 1) (passOnce links N t).1 := by
  intro n d vs hn hd hnd hw hlen
  obtain ⟨hh, hlast, hch⟩ := hw
  match vs, hh, hlen with
  | [x], hh, _ =>
    have hx : x = n := by simpa using hh
    subst hx
    have : x = d := by simpa using hlast
    exact absurd this hnd
  | x :: y :: rest, hh, hlen =>
    have hx : x = n := by simpa using hh
    subst hx
    rw [List.chain'_cons] at hch
    have hadj : Adjacent links x y := hch.1
    have hcost : walkCost links (x :: y :: rest) =
        wt links x y + walkCost links (y :: rest) := rfl
    by_cases hyd : y = d
    · subst hyd
      have h1 : ((passOnce links N t).1 x y).distance ≤ (t x y).distance :=
        passOnce_distance_le links N t x y
      have h2 : (t x y).distance ≤ wt links x y := directLe_wt hv hDir hadj
      have h3 : 0 ≤ walkCost links (y :: rest) :=
        walkCost_nonneg hv (y :: rest) hch.2
      rw [hcost]
      omega
    · have hwalk2 : IsWalk links y d (y :: rest) := by
        refine ⟨rfl, ?_, hch.2⟩
        rw [List.getLast?_cons_cons] at hlast
        exact hlast
      have hyN : y < N := (adjacent_lt hv hadj).2.1
      have hlen2 : (y :: rest).length ≤ k + 1 := by
        have : (x :: y :: rest).length = (y :: rest).length + 1 := rfl
        omega
      have hB2 : (t y d).distance ≤ walkCost links (y :: rest) :=
        hB y d (y :: rest) hyN hd hyd hwalk2 hlen2
      obtain ⟨l, hl, hor⟩ := hadj
      have hinc : l.from_ = x ∨ l.to_ = x := by
        rcases hor with ⟨h1, _⟩ | ⟨_, h2⟩
        · left; exact h1
        · right; exact h2
      have hother : otherEnd l x = y := by
        obtain ⟨hft, _, _, _⟩ := validSession_mem hv hl
        unfold otherEnd
        rcases hor with ⟨h1, h2⟩ | ⟨h1, h2⟩
        · rw [if_pos h1]; exact h2
        · rw [if_neg (by omega)]; exact h1
      have hwl : l.weight = wt links x y :=
        (wt_adjW hv ⟨l, hl, hor, rfl⟩).symm
      have hcand := foldPairs_le_cand hv hInv (pairList N)
        (fun p hp => by
          cases p with
          | mk a b => exact ((mem_pairList N a b).mp hp).2)
        t false hInv (fun a b => le_refl _) x d
        ((mem_pairList N x d).mpr ⟨hn, hd⟩) hnd hd l hl hinc
      have hrd : readDist t (otherEnd l x) d = (t y d).distance := by
        rw [hother]
        unfold readDist
        rw [if_neg hyd]
        unfold jsOr
        have := (hInv y d hyN hd hyd).1
        rw [if_neg (by omega)]
      show ((passOnce links N t).1 x d).distance ≤ walkCost links (x :: y :: rest)
      rw [hcost]
      have hfinal : ((passOnce links N t).1 x d).distance ≤
          l.weight + readDist t (otherEnd l x) d := hcand
      omega

/-- Completeness at a Bellman fixed point: if no incident link improves
any in-range pair, the table bounds every walk. -/
theorem fix_complete {N : Nat} {links : List Link} (hv : ValidSession N links)
    {t : Table} (hInv : EntryInv links N t) (hDir : DirectLe links t)
    (hFix : ∀ n d, n < N → d < N → n ≠ d → ∀ l ∈ links, (l.from_ = n ∨ l.to_ = n) →
      (t n d).distance ≤ l.weight + readDist t (otherEnd l n) d) :
    ∀ (vs : List Nat) (n d : Nat), n < N → d < N → n ≠ d → IsWalk links n d vs →
      (t n d).distance ≤ walkCost links vs := by
  intro vs
  induction vs with
  | nil =>
    intro n d _ _ _ hw
    obtain ⟨hh, _, _⟩ := hw
    exact absurd hh (by simp)
  | cons x tail ih =>
    intro n d hn hd hnd hw
    obtain ⟨hh, hlast, hch⟩ := hw
    have hx : x = n := by simpa using hh
    subst hx
    cases tail with
    | nil =>
      have : x = d := by simpa using hlast
      exact absurd this hnd
    | cons y rest =>
      rw [List.chain'_cons] at hch
      have hadj : Adjacent links x y := hch.1
      have hcost : walkCost links (x :: y :: rest) =
          wt links x y + walkCost links (y :: rest) := rfl
      by_cases hyd : y = d
      · subst hyd
        have h2 : (t x y).distance ≤ wt links x y := directLe_wt hv hDir hadj
        have h3 : 0 ≤ walkCost links (y :: rest) :=
          walkCost_nonneg hv (y :: rest) hch.2
        rw [hcost]
        omega
      · have hwalk2 : IsWalk links y d (y :: rest) := by
          refine ⟨rfl, ?_, hch.2⟩
          rw [List.getLast?_cons_cons] at hlast
          exact hlast
        have hyN : y < N := (adjacent_lt hv hadj).2.1
        have hIH : (t y d).distance ≤ walkCost links (y :: rest) :=
          ih y d hyN hd hyd hwalk2
        obtain ⟨l, hl, hor⟩ := hadj
        have hinc : l.from_ = x ∨ l.to_ = x := by
          rcases hor with ⟨h1, _⟩ | ⟨_, h2⟩
          · left; exact h1
          · right; exact h2
        have hother : otherEnd l x = y := by
          obtain ⟨hft, _, _, _⟩ := validSession_mem hv hl
          unfold otherEnd
          rcases hor with ⟨h1, h2⟩ | ⟨h1, h2⟩
          · rw [if_pos h1]; exact h2
          · rw [if_neg (by omega)]; exact h1
        have hwl : l.weight = wt links x y :=
          (wt_adjW hv ⟨l, hl, hor, rfl⟩).symm
        have hfx := hFix x d hn hd hnd l hl hinc
        have hrd : readDist t (otherEnd l x) d = (t y d).distance := by
          rw [hother]
          unfold readDist
          rw [if_neg hyd]
          unfold jsOr
          have := (hInv y d hyN hd hyd).1
          rw [if_neg (by omega)]
        rw [hcost]
        omega

/-! ## Cutting repeated nodes out of a walk -/
theorem walkCost_singleton (links : List Link) (x : Nat) :
    walkCost links [x] = 0 := rfl

theorem walkCost_append_cons (links : List Link) :
    ∀ (l1 : List Nat) (x : Nat) (l2 : List Nat),
      walkCost links (l1 ++ x :: l2) =
        walkCost links (l1 ++ [x]) + walkCost links (x :: l2) := by
  intro l1
  induction l1 with
  | nil =>
    intro x l2
    show walkCost links (x :: l2) = walkCost links [x] + walkCost links (x :: l2)
    rw [walkCost_singleton]
    omega
  | cons a l1 ih =>
    intro x l2
    cases l1 with
    | nil =>
      show wt links a x + walkCost links (x :: l2) =
        (wt links a x + walkCost links [x]) + walkCost links (x :: l2)
      rw [walkCost_singleton]
      omega
    | cons b l1' =>
      show wt links a b + walkCost links (b :: l1' ++ x :: l2) =
        (wt links a b + walkCost links ((b :: l1') ++ [x])) + walkCost links (x :: l2)
      have := ih x l2
      rw [List.cons_append] at this ⊢
      omega

theorem walk_nodes_lt {N : Nat} {links : List Link} (hv : ValidSession N links) :
    ∀ (vs : List Nat) (n d : Nat), IsWalk links n d vs → n < N →
      ∀ v ∈ vs, v < N := by
  intro vs
  induction vs with
  | nil => intro n d _ _ v hv2; exact absurd hv2 (by simp)
  | cons x tail ih =>
    intro n d hw hn v hv2
    obtain ⟨hh, hlast, hch⟩ := hw
    have hx : x = n := by simpa using hh
    subst hx
    rw [List.mem_cons] at hv2
    rcases hv2 with rfl | hv2
    · exact hn
    · cases tail with
      | nil => exact absurd hv2 (by simp)
      | cons y rest =>
        rw [List.chain'_cons] at hch
        have hyN : y < N := (adjacent_lt hv hch.1).2.1
        have hwalk2 : IsWalk links y d (y :: rest) := by
          refine ⟨rfl, ?_, hch.2⟩
          rw [List.getLast?_cons_cons] at hlast
          exact hlast
        exact ih y d hwalk2 hyN v hv2

theorem nodup_length_le {N : Nat} :
    ∀ vs : List Nat, vs.Nodup → (∀ v ∈ vs, v < N) → vs.length ≤ N := by
  intro vs hnd hlt
  have h1 : vs.toFinset.card = vs.length := List.toFinset_card_of_nodup hnd
  have h2 : vs.toFinset ⊆ Finset.range N := by
    intro v hv2
    rw [List.mem_toFinset] at hv2
    rw [Finset.mem_range]
    exact hlt v hv2
  have h3 := Finset.card_le_card h2
  rw [Finset.card_range] at h3
  omega

theorem not_nodup_split :
    ∀ vs : List Nat, ¬vs.Nodup → ∃ x l1 l2 l3, vs = l1 ++ x :: l2 ++ x :: l3 := by
  intro vs
  induction vs with
  | nil => intro h; exact absurd List.nodup_nil h
  | cons a tl ih =>
    intro h
    by_cases ha : a ∈ tl
    · obtain ⟨s, t2, rfl⟩ := List.append_of_mem ha
      exact ⟨a, [], s, t2, rfl⟩
    · have htl : ¬tl.Nodup := by
        intro hcon
        exact h (List.nodup_cons.mpr ⟨ha, hcon⟩)
      obtain ⟨x, l1, l2, l3, rfl⟩ := ih htl
      exact ⟨x, a :: l1, l2, l3, rfl⟩

theorem walk_cut {N : Nat} {links : List Link} (hv : ValidSession N links)
    (l1 l2 l3 : List Nat) (x n d : Nat)
    (hw : IsWalk links n d (l1 ++ x :: l2 ++ x :: l3)) :
    IsWalk links n d (l1 ++ x :: l3) ∧
      walkCost links (l1 ++ x :: l3) ≤ walkCost links (l1 ++ x :: l2 ++ x :: l3) ∧
      (l1 ++ x :: l3).length < (l1 ++ x :: l2 ++ x :: l3).length := by
  obtain ⟨hh, hlast, hch⟩ := hw
  have hassoc : l1 ++ x :: l2 ++ x :: l3 = l1 ++ ((x :: l2) ++ (x :: l3)) := by
    simp
  rw [hassoc] at hch hlast hh
  rw [List.chain'_append] at hch
  obtain ⟨C1, C2, C3⟩ := hch
  rw [List.chain'_append] at C2
  obtain ⟨D1, D2, D3⟩ := C2
  have hlink : ∀ a ∈ l1.getLast?, ∀ b ∈ (x :: l3).head?, Adjacent links a b := by
    intro a hga b hgb
    have hbx : x = b := by simpa using hgb
    subst hbx
    exact C3 a hga x (by simp)
  constructor
  · refine ⟨?_, ?_, ?_⟩
    · rw [← hh]
      cases l1 <;> rfl
    · have g1 : (l1 ++ ((x :: l2) ++ (x :: l3))).getLast? = (x :: l3).getLast? := by
        rw [List.getLast?_append_of_ne_nil _ (by simp : (x :: l2) ++ (x :: l3) ≠ [])]
        exact List.getLast?_append_of_ne_nil _ (by simp)
      have g2 : (l1 ++ x :: l3).getLast? = (x :: l3).getLast? :=
        List.getLast?_append_of_ne_nil _ (by simp)
      rw [g2, ← g1, hlast]
    · rw [List.chain'_append]
      exact ⟨C1, D2, hlink⟩
  constructor
  · have e1 : walkCost links (l1 ++ ((x :: l2) ++ (x :: l3))) =
        walkCost links (l1 ++ [x]) + walkCost links (x :: (l2 ++ x :: l3)) := by
      have : l1 ++ ((x :: l2) ++ (x :: l3)) = l1 ++ x :: (l2 ++ x :: l3) := by simp
      rw [this]
      exact walkCost_append_cons links l1 x (l2 ++ x :: l3)
    have e2 : walkCost links (x :: (l2 ++ x :: l3)) =
        walkCost links ((x :: l2) ++ [x]) + walkCost links (x :: l3) := by
      have : (x : Nat) :: (l2 ++ x :: l3) = (x :: l2) ++ x :: l3 := by simp
      rw [this]
      exact walkCost_append_cons links (x :: l2) x l3
    have e3 : walkCost links (l1 ++ x :: l3) =
        walkCost links (l1 ++ [x]) + walkCost links (x :: l3) :=
      walkCost_append_cons links l1 x l3
    have hmid : 0 ≤ walkCost links ((x :: l2) ++ [x]) := by
      apply walkCost_nonneg hv
      rw [List.chain'_append]
      refine ⟨D1, List.chain'_singleton x, ?_⟩
      intro a hga b hgb
      have hbx : x = b := by simpa using hgb
      subst hbx
      exact D3 a hga x (by simp)
    rw [hassoc, e1, e2, e3]
    omega
  · simp only [List.length_append, List.length_cons]
    omega

theorem walk_shorten {N : Nat} {links : List Link} (hv : ValidSession N links) :
    ∀ (fuel : Nat) (vs : List Nat) (n d : Nat), vs.length ≤ fuel →
      IsWalk links n d vs → n < N →
      ∃ vs2, IsWalk links n d vs2 ∧ vs2.length ≤ N ∧
        walkCost links vs2 ≤ walkCost links vs := by
  intro fuel
  induction fuel with
  | zero =>
    intro vs n d hlen hw _
    match vs, hlen with
    | [], _ =>
      obtain ⟨hh, _, _⟩ := hw
      exact absurd hh (by simp)
  | succ fuel ih =>
    intro vs n d hlen hw hn
    by_cases hsh : vs.length ≤ N
    · exact ⟨vs, hw, hsh, le_refl _⟩
    · push_neg at hsh
      have hlt : ∀ v ∈ vs, v < N := walk_nodes_lt hv vs n d hw hn
      have hnd : ¬vs.Nodup := by
        intro hcon
        have := nodup_length_le vs hcon hlt
        omega
      obtain ⟨x, l1, l2, l3, rfl⟩ := not_nodup_split vs hnd
      obtain ⟨hw2, hc2, hl2⟩ := walk_cut hv l1 l2 l3 x n d hw
      have hlen2 : (l1 ++ x :: l3).length ≤ fuel := by omega
      obtain ⟨vs3, hw3, hl3, hc3⟩ := ih (l1 ++ x :: l3) n d hlen2 hw2 hn
      exact ⟨vs3, hw3, hl3, le_trans hc3 hc2⟩

theorem relaxLoop_complete {N : Nat} {links : List Link} (hv : ValidSession N links) :
    ∀ (fuel : Nat) (t : Table) (k : Nat),
      EntryInv links N t → DirectLe links t → BoundedOK links N k t →
      N ≤ k + fuel →
      ∀ (n d : Nat) (vs : List Nat), n < N → d < N → n ≠ d → IsWalk links n d vs →
        (((relaxLoop links N fuel t).1) n d).distance ≤ walkCost links vs := by
  intro fuel
  induction fuel with
  | zero =>
    intro t k hInv hDir hB hNk n d vs hn hd hnd hw
    obtain ⟨vs2, hw2, hlen2, hc2⟩ := walk_shorten hv (vs.length) vs n d (le_refl _) hw hn
    have hb := hB n d vs2 hn hd hnd hw2 (by omega)
    show (t n d).distance ≤ walkCost links vs
    omega
  | succ fuel ih =>
    intro t k hInv hDir hB hNk n d vs hn hd hnd hw
    unfold relaxLoop
    dsimp only
    split
    · rename_i hpass
      exact ih (passOnce links N t).1 (k + 1)
        (passOnce_inv hv hInv)
        (directLe_of_le (fun a b => passOnce_distance_le links N t a b) hDir)
        (passOnce_boundedOK hv hInv hDir hB)
        (by omega) n d vs hn hd hnd hw
    · rename_i hpass
      have hfalse : (passOnce links N t).2 = false := by
        cases hval : (passOnce links N t).2
        · rfl
        · exact absurd hval hpass
      obtain ⟨hpres, hbell⟩ := passOnce_false links N t hfalse
      have hcomp := fix_complete hv hInv hDir hbell vs n d hn hd hnd hw
      dsimp only
      rw [(hpres n d).1]
      exact hcomp

/-- Completeness of a full run from the fresh table: the final distance
of every in-range ordered pair bounds the cost of every walk joining
it. -/
theorem run_complete {N : Nat} {links : List Link} (hv : ValidSession N links) :
    ∀ (n d : Nat) (vs : List Nat), n < N → d < N → n ≠ d → IsWalk links n d vs →
      (((updateRoutingTables N links initTable).table) n d).distance ≤
        walkCost links vs := by
  intro n d vs hn hd hnd hw
  unfold updateRoutingTables
  dsimp only
  have hInv : EntryInv links N (initPhase links initTable) :=
    initPhase_inv hv links (fun l hl => hl) initTable (entryInv_initTable links N)
  exact relaxLoop_complete hv (N - 1) (initPhase links initTable) 1 hInv
    (initPhase_directLe hv) (initPhase_boundedOK hv)
    (by have := hv.1; omega) n d vs hn hd hnd hw

/-- The main correctness of a converged run: for every in-range pair
reachable below the sentinel, the final distance is the true
shortest-path distance and the final next hop satisfies the spec's
next-hop equation. -/
theorem run_correct {N : Nat} {links : List Link} (hv : ValidSession N links)
    {n d : Nat} (hn : n < N) (hd : d < N) (hnd : n ≠ d)
    (hreach : ∃ vs, IsWalk links n d vs ∧ walkCost links vs < INFINITY) :
    IsShortestDist links n d
      (((updateRoutingTables N links initTable).table n d).distance) ∧
    ∃ h, ((updateRoutingTables N links initTable).table n d).nextHop = some h ∧
      Adjacent links n h ∧
      ((updateRoutingTables N links initTable).table n d).distance =
        wt links n h + distTo ((updateRoutingTables N links initTable).table) h d := by
  obtain ⟨vs0, hw0, hc0⟩ := hreach
  have hle0 := run_complete hv n d vs0 hn hd hnd hw0
  have hfin : (((updateRoutingTables N links initTable).table n d).distance) < INFINITY := by
    omega
  have hInvF := run_inv hv
  obtain ⟨hi1, hi2, hi3, hi4⟩ := hInvF n d hn hd hnd
  obtain ⟨h, w, dh, hhop, hhN, hAdjW, hdh0, heq, hgood⟩ := hi4 hfin
  have hadj : Adjacent links n h := by
    obtain ⟨l, hl, hor, _⟩ := hAdjW
    exact ⟨l, hl, hor⟩
  have hwtw : wt links n h = w := wt_adjW hv hAdjW
  have hw1 : 1 ≤ w := by
    rw [← hwtw]
    exact wt_pos hv hadj
  obtain ⟨vsS, hwS, hcS⟩ := inv_entry_walk hv hAdjW hgood
  constructor
  · refine ⟨⟨vsS, hwS, ?_⟩, ?_⟩
    · rw [hcS, ← heq]
    · intro vs hwv
      exact run_complete hv n d vs hn hd hnd hwv
  · refine ⟨h, hhop, hadj, ?_⟩
    by_cases hhd : h = d
    · subst hhd
      unfold GoodHop at hgood
      rw [if_pos rfl] at hgood
      subst hgood
      unfold distTo
      rw [if_pos rfl, hwtw]
      omega
    · unfold distTo
      rw [if_neg hhd]
      unfold GoodHop at hgood
      rw [if_neg hhd] at hgood
      obtain ⟨vsh, hwh, hch⟩ := hgood
      have hqdh : (((updateRoutingTables N links initTable).table h d).distance) ≤ dh := by
        have := run_complete hv h d vsh hhN hd hhd hwh
        omega
      have hq1 := (hInvF h d hhN hd hhd).1
      have hqfin : (((updateRoutingTables N links initTable).table h d).distance) <
          INFINITY := by
        omega
      obtain ⟨h', w', dh', hhop', hhN', hAdjW', hdh0', heq', hgood'⟩ :=
        (hInvF h d hhN hd hhd).2.2.2 hqfin
      obtain ⟨vsq, hwq, hcq⟩ := inv_entry_walk hv hAdjW' hgood'
      have hcq2 : walkCost links vsq =
          ((updateRoutingTables N links initTable).table h d).distance := by
        rw [hcq, ← heq']
      obtain ⟨hwcons, hccons⟩ := isWalk_cons hadj hwq
      have hmin := run_complete hv n d (n :: vsq) hn hd hnd hwcons
      rw [hccons, hcq2, hwtw] at hmin
      omega

/-! ## Divisibility of walk costs in the large-weight counterexample graph -/
theorem bigLinks_adjacent_cases {a b : Nat} (h : Adjacent bigLinks a b) :
    (a = 0 ∧ b = 1) ∨ (a = 1 ∧ b = 0) ∨ (a = 1 ∧ b = 2) ∨ (a = 2 ∧ b = 1) := by
  obtain ⟨l, hl, hor⟩ := h
  rw [show bigLinks = [⟨0, 1, 500000⟩, ⟨1, 2, 600000⟩] from rfl] at hl
  rw [List.mem_cons, List.mem_cons] at hl
  rcases hl with rfl | rfl | hl
  · rcases hor with ⟨h1, h2⟩ | ⟨h1, h2⟩
    · left; exact ⟨h1.symm, h2.symm⟩
    · right; left; exact ⟨h2.symm, h1.symm⟩
  · rcases hor with ⟨h1, h2⟩ | ⟨h1, h2⟩
    · right; right; left; exact ⟨h1.symm, h2.symm⟩
    · right; right; right; exact ⟨h2.symm, h1.symm⟩
  · exact absurd hl (by simp)

theorem bigLinks_cost_dvd :
    ∀ vs : List Nat, vs.Chain' (Adjacent bigLinks) →
      (100000 : Int) ∣ walkCost bigLinks vs := by
  intro vs
  induction vs with
  | nil => intro _; exact ⟨0, rfl⟩
  | cons a tail ih =>
    intro hch
    cases tail with
    | nil => exact ⟨0, rfl⟩
    | cons b rest =>
      rw [List.chain'_cons] at hch
      have hwt : (100000 : Int) ∣ wt bigLinks a b := by
        rcases bigLinks_adjacent_cases hch.1 with ⟨rfl, rfl⟩ | ⟨rfl, rfl⟩ |
          ⟨rfl, rfl⟩ | ⟨rfl, rfl⟩
        · exact ⟨5, by decide⟩
        · exact ⟨5, by decide⟩
        · exact ⟨6, by decide⟩
        · exact ⟨6, by decide⟩
      have htail := ih hch.2
      show (100000 : Int) ∣ wt bigLinks a b + walkCost bigLinks (b :: rest)
      exact dvd_add hwt htail

/-! ## Pass accounting for the termination claim -/
theorem relaxLoop_flags_length (links : List Link) (N : Nat) :
    ∀ (fuel : Nat) (t : Table), ((relaxLoop links N fuel t).2).length ≤ fuel := by
  intro fuel
  induction fuel with
  | zero => intro t; exact le_refl _
  | succ fuel ih =>
    intro t
    unfold relaxLoop
    dsimp only
    split
    · have := ih (passOnce links N t).1
      simp only [List.length_cons]
      omega
    · simp

theorem relaxLoop_flags_true (links : List Link) (N : Nat) :
    ∀ (fuel : Nat) (t : Table) (i : Nat),
      i + 1 < ((relaxLoop links N fuel t).2).length →
      ((relaxLoop links N fuel t).2).getD i false = true := by
  intro fuel
  induction fuel with
  | zero => intro t i h; exact absurd h (by simp [relaxLoop])
  | succ fuel ih =>
    intro t i h
    unfold relaxLoop at h ⊢
    dsimp only at h ⊢
    split at h
    · rename_i hp
      rw [if_pos hp]
      cases i with
      | zero => rfl
      | succ i =>
        simp only [List.length_cons] at h
        have := ih (passOnce links N t).1 i (by omega)
        simpa using this
    · rename_i hp
      rw [if_neg hp]
      simp at h

theorem candList_cons_incident (t : Table) (n d : Nat) (l : Link)
    (ls : List Link) (h : l.from_ = n ∨ l.to_ = n) :
    candList (l :: ls) t n d =
      (l.weight + readDist t (otherEnd l n) d, otherEnd l n) :: candList ls t n d := by
  unfold candList
  rw [List.filterMap_cons]
  rw [if_pos h]

theorem candList_cons_other (t : Table) (n d : Nat) (l : Link)
    (ls : List Link) (h : ¬(l.from_ = n ∨ l.to_ = n)) :
    candList (l :: ls) t n d = candList ls t n d := by
  unfold candList
  rw [List.filterMap_cons]
  rw [if_neg h]

theorem scanLinks_spec (t : Table) (n d : Nat) :
    ∀ (ls : List Link) (acc : Int × Option Nat × Bool),
      (scanLinks ls t n d acc).1 =
        (candList ls t n d).foldl (fun m c => min m c.1) acc.1 ∧
      ((scanLinks ls t n d acc).1 = acc.1 → (scanLinks ls t n d acc).2 = acc.2) ∧
      ((scanLinks ls t n d acc).1 < acc.1 →
        (scanLinks ls t n d acc).2.2 = true ∧
        ∃ c, (candList ls t n d).find?
            (fun c => c.1 == (scanLinks ls t n d acc).1) = some c ∧
          (scanLinks ls t n d acc).2.1 = some c.2) := by
  intro ls
  induction ls with
  | nil =>
    intro acc
    refine ⟨rfl, fun _ => rfl, fun h => absurd h (lt_irrefl _)⟩
  | cons l ls ih =>
    intro acc
    by_cases hinc : l.from_ = n ∨ l.to_ = n
    · have hcl := candList_cons_incident t n d l ls hinc
      by_cases hlt : l.weight + readDist t (otherEnd l n) d < acc.1
      · have hstep : considerLink t n d acc l =
            (l.weight + readDist t (otherEnd l n) d, some (otherEnd l n), true) := by
          unfold considerLink
          rw [if_pos hinc, if_pos hlt]
        have hrw : scanLinks (l :: ls) t n d acc =
            scanLinks ls t n d (l.weight + readDist t (otherEnd l n) d,
              some (otherEnd l n), true) := by
          show scanLinks ls t n d (considerLink t n d acc l) = _
          rw [hstep]
        obtain ⟨ih1, ih2, ih3⟩ := ih (l.weight + readDist t (otherEnd l n) d,
          some (otherEnd l n), true)
        have hle := scanLinks_fst_le ls t n d (l.weight + readDist t (otherEnd l n) d,
          some (otherEnd l n), true)
        refine ⟨?_, ?_, ?_⟩
        · rw [hrw, hcl]
          show _ = (candList ls t n d).foldl (fun m c => min m c.1)
            (min acc.1 (l.weight + readDist t (otherEnd l n) d))
          rw [min_eq_right (le_of_lt hlt)]
          exact ih1
        · intro h
          exfalso
          rw [hrw] at h
          omega
        · intro _
          rw [hrw, hcl]
          by_cases heq : (scanLinks ls t n d (l.weight + readDist t (otherEnd l n) d,
              some (otherEnd l n), true)).1 = l.weight + readDist t (otherEnd l n) d
          · have h2 := ih2 heq
            have hfindpos : ((l.weight + readDist t (otherEnd l n) d, otherEnd l n) ::
                candList ls t n d).find?
                (fun c => c.1 == (scanLinks ls t n d (l.weight +
                  readDist t (otherEnd l n) d, some (otherEnd l n), true)).1) =
                some (l.weight + readDist t (otherEnd l n) d, otherEnd l n) := by
              apply List.find?_cons_of_pos
              simp [heq]
            refine ⟨?_, ⟨(l.weight + readDist t (otherEnd l n) d, otherEnd l n),
              hfindpos, ?_⟩⟩
            · rw [show (scanLinks ls t n d (l.weight + readDist t (otherEnd l n) d,
                some (otherEnd l n), true)).2.2 =
                  ((scanLinks ls t n d (l.weight + readDist t (otherEnd l n) d,
                    some (otherEnd l n), true)).2).2 from rfl, h2]
            · rw [show (scanLinks ls t n d (l.weight + readDist t (otherEnd l n) d,
                some (otherEnd l n), true)).2.1 =
                  ((scanLinks ls t n d (l.weight + readDist t (otherEnd l n) d,
                    some (otherEnd l n), true)).2).1 from rfl, h2]
          · have hlt2 : (scanLinks ls t n d (l.weight + readDist t (otherEnd l n) d,
                some (otherEnd l n), true)).1 < l.weight + readDist t (otherEnd l n) d := by
              omega
            obtain ⟨hflag, c, hfind, hhop⟩ := ih3 hlt2
            refine ⟨hflag, c, ?_, hhop⟩
            rw [List.find?_cons_of_neg]
            · exact hfind
            · simp
              omega
      · have hstep : considerLink t n d acc l = acc := by
          unfold considerLink
          rw [if_pos hinc, if_neg hlt]
        have hrw : scanLinks (l :: ls) t n d acc = scanLinks ls t n d acc := by
          show scanLinks ls t n d (considerLink t n d acc l) = _
          rw [hstep]
        obtain ⟨ih1, ih2, ih3⟩ := ih acc
        refine ⟨?_, ?_, ?_⟩
        · rw [hrw, hcl]
          show _ = (candList ls t n d).foldl (fun m c => min m c.1)
            (min acc.1 (l.weight + readDist t (otherEnd l n) d))
          rw [min_eq_left (le_of_not_lt hlt)]
          exact ih1
        · intro h
          rw [hrw] at h ⊢
          exact ih2 h
        · intro h
          rw [hrw] at h ⊢
          obtain ⟨hflag, c, hfind, hhop⟩ := ih3 h
          refine ⟨hflag, c, ?_, hhop⟩
          rw [hcl, List.find?_cons_of_neg]
          · exact hfind
          · simp
            omega
    · have hcl := candList_cons_other t n d l ls hinc
      have hstep : considerLink t n d acc l = acc := by
        unfold considerLink
        rw [if_neg hinc]
      have hrw : scanLinks (l :: ls) t n d acc = scanLinks ls t n d acc := by
        show scanLinks ls t n d (considerLink t n d acc l) = _
        rw [hstep]
      obtain ⟨ih1, ih2, ih3⟩ := ih acc
      rw [hrw, hcl]
      exact ⟨ih1, ih2, ih3⟩

/-- Claim C1, amended: for every valid session and every ordered pair
(n, d) joined by some walk of total weight below the unreachable
sentinel, the converged `distance[n][d]` is the true shortest-path
distance and `nextHop[n][d]` is a neighbor h with
`distance[n][d] = weight(n, h) + distance[h][d]` (self-distance read as
0); in particular the 3-node scenario converges to the expected
tables. The below-sentinel proviso is the amendment forced by
`C1_counterexample`. -/
theorem C1_shortest_paths (N : Nat) (links : List Link)
    (hv : ValidSession N links) : C1Concl N links := by
  constructor
  · intro n d hn hd hnd hreach
    exact run_correct hv hn hd hnd hreach
  · decide

theorem C1_shortest_paths_witness : C1Concl 3 scenarioLinks :=
  C1_shortest_paths 3 scenarioLinks (by decide)

/-- Counterexample to claim C1 as stated: with weights 500000 and 600000
(positive, below the sentinel, so the session is valid and C is
reachable from A), the true shortest-path distance A-C is 1100000, but
the candidate 500000 + 600000 exceeds the sentinel 999999 and is never
adopted, so the converged entry keeps the sentinel, which is not the
shortest-path distance (every walk cost in this graph is divisible by
100000; 999999 is not). -/
theorem C1_counterexample :
    ValidSession 3 bigLinks ∧ (0 : Nat) ≠ 2 ∧ Reachable bigLinks 0 2 ∧
    ¬ IsShortestDist bigLinks 0 2
      (((updateRoutingTables 3 bigLinks initTable).table 0 2).distance) := by
  refine ⟨by decide, by decide, ⟨[0, 1, 2], by decide⟩, ?_⟩
  intro ⟨⟨vs, hw, hc⟩, _⟩
  have hdist : (((updateRoutingTables 3 bigLinks initTable).table 0 2).distance) =
      999999 := by decide
  rw [hdist] at hc
  have hdvd := bigLinks_cost_dvd vs hw.2.2
  rw [hc] at hdvd
  obtain ⟨k, hk⟩ := hdvd
  omega

/-! ## Claim C2 -/
/-- Claim C2 fails on the code: applying the weight edit A-B: 2 → 10 to
the converged 3-node scenario and re-running leaves A→C at the stale
distance 5 via B (the edit path clears only flags, and relaxation never
raises a distance), while a fresh session built with the edited weight
converges to A→C = 13 via B. -/
theorem C2_edit_rerun_diverges :
    (handleWeightChange (some ⟨0, 1, 2⟩) (some 2) false false 8 3 scenarioLinks
        convergedTable).map
      (fun r => (r.1, (r.2.table 0 2).distance, (r.2.table 0 2).nextHop)) =
      some (editedLinks, 5, some 1) ∧
    ((updateRoutingTables 3 editedLinks initTable).table 0 2).distance = 13 ∧
    ((updateRoutingTables 3 editedLinks initTable).table 0 2).nextHop = some 1 ∧
    (5 : Int) ≠ 13 := by
  decide

/-! ## Claim C3 -/
/-- Claim C3 fails on the code: the successful edit path does update the
weight and restart, but its table reset writes
`{...v, calculated: false, isNew: false, isProcessing: false}` —
the flags are cleared while `distance` and `nextHop` are preserved, so
the A→C entry enters the re-run as (5, B), not as the unreachable
baseline (INFINITY, '-'). -/
theorem C3_reset_keeps_distances :
    (handleWeightChange (some ⟨0, 1, 2⟩) (some 2) false false 8 3 scenarioLinks
      convergedTable).isSome = true ∧
    (convergedTable 0 2).calculated = true ∧
    clearFlags convergedTable 0 2 = ⟨5, some 1, false, false, false⟩ ∧
    (clearFlags convergedTable 0 2).distance ≠ INFINITY ∧
    (clearFlags convergedTable 0 2).nextHop ≠ none := by
  decide

/-- Claim C4: the relaxation loop executes at most `maxPasses = N - 1`
passes, stops immediately after a change-free pass, and in either case
the run terminates in the completed state. -/
theorem C4_bounded_passes (N : Nat) (links : List Link)
    (hv : ValidSession N links) : C4Concl N links := by
  refine ⟨?_, ?_, rfl, rfl, rfl⟩
  · exact relaxLoop_flags_length links N (N - 1) (initPhase links initTable)
  · intro i h
    exact relaxLoop_flags_true links N (N - 1) (initPhase links initTable) i h

theorem C4_bounded_passes_witness : C4Concl 3 scenarioLinks :=
  C4_bounded_passes 3 scenarioLinks (by decide)

/-! ## Claim C5 -/
/-- Claim C5, amended: the edit guard accepts exactly when a link is
selected, an edit weight is loaded, and the engine is not computing;
the pause flag plays no role, so an edit attempted while computing is
rejected even when the engine is paused. -/
theorem C5_guard_ignores_pause (sel : Option Link) (ew : Option Int)
    (ip pz : Bool) (change : Int) (N : Nat) (links : List Link) (t : Table) :
    (handleWeightChange sel ew ip pz change N links t).isSome =
      (sel.isSome && ew.isSome && !ip) := by
  cases sel <;> cases ew <;> cases ip <;> simp [handleWeightChange]

/-- Counterexample to claim C5 as stated: with the engine computing and
paused (`isProcessing = true`, `isPaused = true`), a well-formed edit of
the scenario is rejected as a no-op, although the claim says a paused
engine accepts edits. -/
theorem C5_counterexample :
    (handleWeightChange (some ⟨0, 1, 2⟩) (some 2) true true 1 3 scenarioLinks
      convergedTable).isSome = false := by
  decide

/-! ## Claim C6 -/
/-- Claim C6 fails on the code: under the realizable pause history
`schedFirst` (flag set at the very first checkpoint, cleared during the
wait), the initialization loop's `continue` skips the A-B link's unit of
work entirely, and the run finishes with A→B still at the unreachable
sentinel, unlike the never-paused run (distance 2); resumption does not
continue where the engine stopped. -/
theorem C6_pause_skips_work :
    ((updateRoutingTablesP schedFirst 3 scenarioLinks initTable).table 0 1).distance
      = INFINITY ∧
    ((updateRoutingTablesP (fun _ => false) 3 scenarioLinks initTable).table 0 1).distance
      = 2 ∧
    ((updateRoutingTables 3 scenarioLinks initTable).table 0 1).distance = 2 := by
  decide

/-! ## Claim C7 -/
theorem buildLinks_inner_mem (m : Nat → Nat → Int) (i : Nat) :
    ∀ (js : List Nat) (acc : List Link) (l : Link),
      l ∈ js.foldl (fun acc2 j =>
          if m i j = INFINITY then acc2 else acc2 ++ [⟨j, i, m i j⟩]) acc ↔
        l ∈ acc ∨ ∃ j ∈ js, m i j ≠ INFINITY ∧ l = ⟨j, i, m i j⟩ := by
  intro js
  induction js with
  | nil => intro acc l; simp
  | cons j js ih =>
    intro acc l
    show l ∈ js.foldl _ (if m i j = INFINITY then acc else acc ++ [⟨j, i, m i j⟩]) ↔ _
    rw [ih]
    by_cases hj : m i j = INFINITY
    · rw [if_pos hj]
      constructor
      · rintro (h | h)
        · exact Or.inl h
        · exact Or.inr (by
            obtain ⟨j2, hj2, hne, heq⟩ := h
            exact ⟨j2, by simp [hj2], hne, heq⟩)
      · rintro (h | ⟨j2, hj2, hne, heq⟩)
        · exact Or.inl h
        · rw [List.mem_cons] at hj2
          rcases hj2 with rfl | hj2
          · exact absurd hj hne
          · exact Or.inr ⟨j2, hj2, hne, heq⟩
    · rw [if_neg hj]
      constructor
      · rintro (h | h)
        · rw [List.mem_append] at h
          rcases h with h | h
          · exact Or.inl h
          · rw [List.mem_singleton] at h
            exact Or.inr ⟨j, by simp, hj, h⟩
        · obtain ⟨j2, hj2, hne, heq⟩ := h
          exact Or.inr ⟨j2, by simp [hj2], hne, heq⟩
      · rintro (h | ⟨j2, hj2, hne, heq⟩)
        · exact Or.inl (by rw [List.mem_append]; exact Or.inl h)
        · rw [List.mem_cons] at hj2
          rcases hj2 with rfl | hj2
          · exact Or.inl (by rw [List.mem_append, List.mem_singleton]; exact Or.inr heq)
          · exact Or.inr ⟨j2, hj2, hne, heq⟩

theorem buildLinks_outer_mem (m : Nat → Nat → Int) :
    ∀ (is : List Nat) (acc : List Link) (l : Link),
      l ∈ is.foldl (fun acc i =>
          (List.range i).foldl (fun acc2 j =>
            if m i j = INFINITY then acc2 else acc2 ++ [⟨j, i, m i j⟩]) acc) acc ↔
        l ∈ acc ∨ ∃ i ∈ is, ∃ j, j < i ∧ m i j ≠ INFINITY ∧ l = ⟨j, i, m i j⟩ := by
  intro is
  induction is with
  | nil => intro acc l; simp
  | cons i is ih =>
    intro acc l
    show l ∈ is.foldl _ ((List.range i).foldl _ acc) ↔ _
    rw [ih, buildLinks_inner_mem]
    constructor
    · rintro ((h | h) | h)
      · exact Or.inl h
      · obtain ⟨j, hj, hne, heq⟩ := h
        rw [List.mem_range] at hj
        exact Or.inr ⟨i, by simp, j, hj, hne, heq⟩
      · obtain ⟨i2, hi2, j, hj, hne, heq⟩ := h
        exact Or.inr ⟨i2, by simp [hi2], j, hj, hne, heq⟩
    · rintro (h | ⟨i2, hi2, j, hj, hne, heq⟩)
      · exact Or.inl (Or.inl h)
      · rw [List.mem_cons] at hi2
        rcases hi2 with rfl | hi2
        · exact Or.inl (Or.inr ⟨j, List.mem_range.mpr hj, hne, heq⟩)
        · exact Or.inr ⟨i2, hi2, j, hj, hne, heq⟩

theorem mem_buildLinks (N : Nat) (m : Nat → Nat → Int) (l : Link) :
    l ∈ buildLinks N m ↔
      l.from_ < l.to_ ∧ l.to_ < N ∧ m l.to_ l.from_ ≠ INFINITY ∧
        l.weight = m l.to_ l.from_ := by
  unfold buildLinks
  rw [buildLinks_outer_mem]
  constructor
  · rintro (h | ⟨i, hi, j, hj, hne, rfl⟩)
    · exact absurd h (by simp)
    · rw [List.mem_range] at hi
      exact ⟨hj, hi, hne, rfl⟩
  · rintro ⟨hft, htN, hne, hw⟩
    refine Or.inr ⟨l.to_, List.mem_range.mpr htN, l.from_, hft, hne, ?_⟩
    cases l with
    | mk f g w =>
      dsimp only at hw ⊢
      rw [hw]

/-- Claim C7, amended to what the code does (there is no
`InvalidTopology` failure path): see `C7Concl`. -/
theorem C7_construction (m0 : Nat → Nat → Int) (i0 j0 : Nat) (v0 : Int)
    (hm : ∀ a b, m0 a b = m0 b a) : C7Concl m0 i0 j0 v0 := by
  refine ⟨?_, ⟨rfl, rfl, ?_⟩, ?_, ?_, ?_⟩
  · intro raw
    unfold nodeCountInput
    constructor
    · exact le_min (by norm_num) (le_max_left 2 raw)
    · exact min_le_left 8 _
  · intro x hx
    show jsOr x INFINITY = x
    unfold jsOr
    rw [if_neg hx]
  · intro N m l hl
    rw [show (handleSetupComplete N m).1 = buildLinks N m from rfl,
      mem_buildLinks] at hl
    exact ⟨hl.1, hl.2.1, hl.2.2.2⟩
  · intro N m l1 l2 h1 h2 hf ht
    rw [show (handleSetupComplete N m).1 = buildLinks N m from rfl,
      mem_buildLinks] at h1 h2
    cases l1 with
    | mk f1 t1 w1 =>
      cases l2 with
      | mk f2 t2 w2 =>
        dsimp only at hf ht h1 h2
        subst hf
        subst ht
        rw [h1.2.2.2, h2.2.2.2]
  · intro a b
    unfold handleDistanceChange
    by_cases h1 : (a = i0 ∧ b = j0) ∨ (a = j0 ∧ b = i0)
    · rw [if_pos h1, if_pos (by tauto)]
    · rw [if_neg h1, if_neg (by tauto)]
      exact hm a b

theorem C7_construction_witness : C7Concl initialMatrix 1 0 (-5) :=
  C7_construction initialMatrix 1 0 (-5) (fun _ _ => rfl)

/-- Counterexample to claim C7 as stated: a matrix cell set to the
negative weight -5 through the form's own handlers does not make
construction fail — `handleSetupComplete` happily produces a topology
with a weight ≤ 0 link and fresh routing tables. -/
theorem C7_counterexample :
    (handleSetupComplete 2 matrixNeg).1 = [⟨0, 1, -5⟩] ∧
    matrixNeg 1 0 ≤ 0 ∧
    (handleSetupComplete 2 matrixNeg).1 ≠ [] := by
  decide

/-- Claim C8: sentinel discipline of the converged run. -/
theorem C8_sentinel (N : Nat) (links : List Link)
    (hv : ValidSession N links) : C8Concl N links := by
  refine ⟨?_, ?_, ?_⟩
  · intro n d hn hd hnd hunreach
    obtain ⟨h1, h2, h3, h4⟩ := run_inv hv n d hn hd hnd
    by_cases hfin :
        ((updateRoutingTables N links initTable).table n d).distance < INFINITY
    · exfalso
      obtain ⟨h, w, dh, _, _, hAdjW, _, _, hgood⟩ := h4 hfin
      obtain ⟨vs, hwv, _⟩ := inv_entry_walk hv hAdjW hgood
      exact hunreach ⟨vs, hwv⟩
    · have heq : ((updateRoutingTables N links initTable).table n d).distance =
          INFINITY := by omega
      exact ⟨heq, h3 heq⟩
  · intro n d hn hd hnd
    exact (run_inv hv n d hn hd hnd).2.1
  · intro t n d acc l hw hacc hrd
    unfold considerLink
    split
    · dsimp only
      rw [hrd, if_neg (by omega)]
    · rfl

theorem C8_sentinel_witness : C8Concl 3 scenarioLinks :=
  C8_sentinel 3 scenarioLinks (by decide)

/-! ## Claim C9 -/
/-- Claim C9: within one (node, destination) relaxation step, the scan
walks the incident candidates in link-declaration order; the final
minimum distance is the running minimum of the old distance and all
candidates; if no candidate is strictly smaller than the old distance,
both the distance and the next hop are left unchanged (an equal
candidate never overrides) and the step reports no change; and if some
candidate improves, the chosen next hop is exactly the first candidate
in scan order achieving the final minimum. -/
theorem C9_first_improver_wins (links : List Link) (t : Table) (n d : Nat)
    (old : Int) (hop0 : Option Nat) :
    (scanLinks links t n d (old, hop0, false)).1 =
      (candList links t n d).foldl (fun m c => min m c.1) old ∧
    (¬ (scanLinks links t n d (old, hop0, false)).1 < old →
      (scanLinks links t n d (old, hop0, false)).1 = old ∧
      (scanLinks links t n d (old, hop0, false)).2.1 = hop0 ∧
      (scanLinks links t n d (old, hop0, false)).2.2 = false) ∧
    ((scanLinks links t n d (old, hop0, false)).1 < old →
      (scanLinks links t n d (old, hop0, false)).2.2 = true ∧
      ∃ c, (candList links t n d).find?
          (fun c => c.1 == (scanLinks links t n d (old, hop0, false)).1) = some c ∧
        (scanLinks links t n d (old, hop0, false)).2.1 = some c.2) := by
  obtain ⟨h1, h2, h3⟩ := scanLinks_spec t n d links (old, hop0, false)
  refine ⟨h1, ?_, h3⟩
  intro hnlt
  have hle := scanLinks_fst_le links t n d (old, hop0, false)
  have heq : (scanLinks links t n d (old, hop0, false)).1 = old := by omega
  have := h2 heq
  refine ⟨heq, ?_, ?_⟩
  · rw [show (scanLinks links t n d (old, hop0, false)).2.1 =
      ((scanLinks links t n d (old, hop0, false)).2).1 from rfl, this]
  · rw [show (scanLinks links t n d (old, hop0, false)).2.2 =
      ((scanLinks links t n d (old, hop0, false)).2).2 from rfl, this]

/-! ## Claim C10 -/
/-- Claim C10, amended: every relaxation write is non-increasing — a
single (node, destination) step never raises any entry's distance, and
neither does the whole pass loop; the initialization phase is the
exception acknowledged by `C10_counterexample`. -/
theorem C10_relaxation_monotone :
    (∀ (links : List Link) (t : Table) (n d a b : Nat),
      ((relaxPair links t n d).1 a b).distance ≤ (t a b).distance) ∧
    (∀ (links : List Link) (N fuel : Nat) (t : Table) (a b : Nat),
      ((relaxLoop links N fuel t).1 a b).distance ≤ (t a b).distance) :=
  ⟨relaxPair_distance_le, fun links N fuel t a b =>
    relaxLoop_distance_le links N fuel t a b⟩

/-- Counterexample to claim C10 as stated: a run of the engine can raise
an entry's distance, because the initialization phase overwrites each
direct entry with the current link weight unconditionally. After the
A-B weight edit 2 → 10, the re-run raises the A→B entry from the
pre-run value 2 to 10 (so an increased weight on a direct link IS
reflected without a full reset). -/
theorem C10_counterexample :
    (clearFlags convergedTable 0 1).distance = 2 ∧
    ((updateRoutingTables 3 editedLinks (clearFlags convergedTable)).table 0 1).distance
      = 10 ∧
    ¬ ((updateRoutingTables 3 editedLinks
        (clearFlags convergedTable)).table 0 1).distance ≤
      (clearFlags convergedTable 0 1).distance := by
  decide
